import Mathlib

/-!
Verification development for the Seat-Allocation repository.

The embedded code comes from:
- `src/ai/flows/intelligent-seating.ts` — the seat allocator used by the app
  (`intelligentSeating`), which buckets students by paper, walks each
  classroom's desks column-major and fills Side 1 / Side 2 of each desk from
  two distinct paper queues;
- `src/ai/flows/algorithmic-seating.ts` — the alternative allocator
  (`algorithmicSeating`) with the total-capacity fast-fail guard and a
  randomized placement loop (randomness is modelled by an explicit `rand`
  stream parameter);
- `src/lib/print-utils.ts` — the report generator (`generatePrintData`).

JavaScript primitives are modelled explicitly: `String.prototype.split('-')`
and `parseInt(·, 10)` on character lists, `Array.prototype.sort` (stable since
ES2019) as a stable insertion sort, and `localeCompare` as code-point
lexicographic comparison.  Machine numbers in the sources are non-negative
integers (capacities, counts, desk/serial numbers) or parsed integers; they
are modelled as `Nat` / `Int`.
-/

namespace SeatAlloc

/-! ### JS string primitives -/

/-- `str.split('-')`, on the character list of `str`.  `cur` is the reversed
current chunk. -/
def splitDashAux : List Char → List Char → List (List Char)
  | [], cur => [cur.reverse]
  | c :: rest, cur =>
    if c = '-' then cur.reverse :: splitDashAux rest []
    else splitDashAux rest (c :: cur)

/-- `str.split('-')`.  Like in JS, the result is never empty; `"".split('-')`
is `[""]`. -/
def splitDash (s : String) : List String :=
  (splitDashAux s.data []).map String.mk

/-- Numeric value of a digit run. -/
def digitsToNat (ds : List Char) : Nat :=
  ds.foldl (fun a c => a * 10 + (c.toNat - 48)) 0

/-- JS `parseInt(s, 10)`: skip leading whitespace, optional sign, then the
longest digit prefix; `none` models `NaN`. -/
def parseIntJS (s : String) : Option Int :=
  let cs := s.data.dropWhile Char.isWhitespace
  match cs with
  | '-' :: rest =>
    let ds := rest.takeWhile Char.isDigit
    if ds.isEmpty then none else some (-(digitsToNat ds : Int))
  | '+' :: rest =>
    let ds := rest.takeWhile Char.isDigit
    if ds.isEmpty then none else some ((digitsToNat ds : Int))
  | _ =>
    let ds := cs.takeWhile Char.isDigit
    if ds.isEmpty then none else some ((digitsToNat ds : Int))

/-- `extractRollNumberNumeric` from intelligent-seating.ts: parse the last
'-'-separated part of the roll number; a non-finite parse yields 0. -/
def extractRollNumberNumeric (rollNumber : String) : Int :=
  let parts := splitDash rollNumber
  match parseIntJS (parts.getLastD "") with
  | some n => n
  | none => 0

/-- Code-point lexicographic comparison of character lists (`≤`).  Models the
`localeCompare`-based ascending orders in the sources (locale effects are out
of scope; the default code-point order is used). -/
def charListLe : List Char → List Char → Bool
  | [], _ => true
  | _ :: _, [] => false
  | a :: as, b :: bs =>
    if a.toNat < b.toNat then true
    else if b.toNat < a.toNat then false
    else charListLe as bs

/-- `a.localeCompare(b) ≤ 0`, modelled as code-point order. -/
def strLe (a b : String) : Bool := charListLe a.data b.data

/-- Both ends trimmed of whitespace (JS `String.prototype.trim`). -/
def trimWs (s : String) : String :=
  String.mk (((s.data.dropWhile Char.isWhitespace).reverse.dropWhile Char.isWhitespace).reverse)

/-! ### Stable sorting

`Array.prototype.sort` with an ascending comparator is a stable comparison
sort (stability is guaranteed since ES2019); it is modelled as a stable
insertion sort: each element is inserted after every already-placed element
that compares `≤` to it. -/

/-- Insert `x` after every element `y` of `l` with `le y x`. -/
def insortOne (le : α → α → Bool) : List α → α → List α
  | [], x => [x]
  | y :: ys, x => if le y x then y :: insortOne le ys x else x :: y :: ys

/-- Stable insertion sort. -/
def stableSort (le : α → α → Bool) (l : List α) : List α :=
  l.foldl (insortOne le) []

/-! ### Data model (intelligent-seating.ts) -/

inductive Side
  | side1
  | side2
deriving DecidableEq

structure Student where
  rollNumber : String
  paper : String
  branch : String
  semesterSection : String
deriving DecidableEq

structure Classroom where
  roomName : String
  totalCapacity : Nat
  numberOfColumns : Nat
  desksPerColumn : Option (List Nat)
deriving DecidableEq

structure SeatingAssignment where
  roomName : String
  deskNumber : Nat
  side : Side
  serialNumber : Nat
deriving DecidableEq

structure StudentAssignment where
  rollNumber : String
  paper : String
  assignment : Option SeatingAssignment
deriving DecidableEq

structure SeatingOutput where
  assignments : List StudentAssignment
  unassignedStudents : List Student
deriving DecidableEq

/-- Modelled from the spec: `semesterNumber(semesterSection)` is the first
'-'-separated component of `semesterSection`, trimmed, defaulting to `"0"`
(the reading used by the repository's `getSemesterNumber` helpers). -/
def semesterNumber (semSec : String) : String :=
  let first := (splitDash semSec).headD ""
  let t := trimWs first
  if t = "" then "0" else t

/-- Modelled from the spec: `ConflictClass(student)` is the composite key
"paper plus semester number"; the allocator itself never computes it, so it is
modelled as the pair (equality of the pair is equality of both parts). -/
def conflictClass (s : Student) : String × String :=
  (s.paper, semesterNumber s.semesterSection)

/-! ### Keyed grouping

`byPaper` in intelligent-seating.ts is a `Record<string, Student[]>` together
with a `paperOrder` array of keys in first-occurrence order; the pair is
modelled as an ordered association list.  The same shape models the summary
groups of print-utils.ts. -/

/-- Append `x` to its key's bucket, or open a new bucket at the end. -/
def insertKeyed (key : α → String) : List (String × List α) → α → List (String × List α)
  | [], x => [(key x, [x])]
  | (k, l) :: t, x =>
    if k = key x then (k, l ++ [x]) :: t else (k, l) :: insertKeyed key t x

def groupKeyed (key : α → String) (xs : List α) : List (String × List α) :=
  xs.foldl (insertKeyed key) []

/-- Bucket lookup; unknown keys give `[]` (JS `byPaper[p]` being undefined). -/
def lookupKeyed : List (String × List α) → String → List α
  | [], _ => []
  | (k, l) :: t, p => if k = p then l else lookupKeyed t p

/-! ### Allocator state (intelligent-seating.ts)

`paperOrder`, `byPaper` and the round-robin pointer `paperIdx` form the
mutable state threaded through the allocation; queues are modelled as a
function from paper to its waiting list. -/

structure AllocState where
  order : List String
  q : String → List Student
  idx : Nat

/-- The students still waiting, gathered per paper in `paperOrder` order —
exactly the loop that builds `unassignedStudents` at the end of
`intelligentSeating`. -/
def allQueues (st : AllocState) : List Student :=
  st.order.flatMap st.q

/-- `hasRemaining()` from intelligent-seating.ts. -/
def hasRemaining (st : AllocState) : Bool :=
  st.order.any fun p => !(st.q p).isEmpty

/-- One round-robin scan of `nextPaper` (intelligent-seating.ts lines
151-161): starting at `idx`, check up to `fuel` papers cyclically, returning
the first non-excluded paper with a non-empty queue together with the
advanced pointer. -/
def nextPaperAux (order : List String) (q : String → List Student)
    (exclude : Option String) : Nat → Nat → Option String × Nat
  | 0, idx => (none, idx)
  | fuel + 1, idx =>
    let p := order.getD (idx % order.length) ""
    let idx' := (idx + 1) % order.length
    if exclude ≠ some p ∧ q p ≠ [] then (some p, idx')
    else nextPaperAux order q exclude fuel idx'

/-- `nextPaper(exclude)`: scans at most `paperOrder.length` papers (when the
order is empty it returns null immediately, leaving the pointer unchanged). -/
def nextPaperFrom (st : AllocState) (exclude : Option String) : Option String × Nat :=
  nextPaperAux st.order st.q exclude st.order.length st.idx

/-- First half of `ensurePair()`: refresh `p1` when it is null or its queue
emptied (`if (!p1 || !byPaper[p1]?.length) p1 = nextPaper()`). -/
def refreshP1 (st : AllocState) (p1 : Option String) : Option String × Nat :=
  match p1 with
  | none => nextPaperFrom st none
  | some a => if st.q a = [] then nextPaperFrom st none else (some a, st.idx)

/-- Second half of `ensurePair()`: refresh `p2` when it is null, emptied or
equal to the updated `p1`, excluding `p1`
(`if (!p2 || !byPaper[p2]?.length || p2 === p1) p2 = nextPaper(p1 || undefined)`). -/
def refreshP2 (st : AllocState) (p1n p2 : Option String) : Option String × Nat :=
  match p2 with
  | none => nextPaperFrom st p1n
  | some b =>
    if st.q b = [] ∨ p1n = some b then nextPaperFrom st p1n else (some b, st.idx)

/-- `ensurePair()` (intelligent-seating.ts lines 166-169).  Only the rotation
pointer changes; the queues do not. -/
def ensurePair (st : AllocState) (p1 p2 : Option String) :
    Option String × Option String × Nat :=
  let r1 := refreshP1 st p1
  let r2 := refreshP2 { st with idx := r1.2 } r1.1 p2
  (r1.1, r2.1, r2.2)

/-- `byPaper[p]?.shift() || null`: pop the head of `p`'s queue (no-op on an
empty queue). -/
def shiftQ (q : String → List Student) (p : String) :
    Option Student × (String → List Student) :=
  match q p with
  | [] => (none, q)
  | s :: t => (some s, fun p' => if p' = p then t else q p')

/-- An assignment record as pushed by the allocator. -/
def mkAssign (s : Student) (name : String) (desk : Nat) (side : Side)
    (serial : Nat) : StudentAssignment :=
  { rollNumber := s.rollNumber, paper := s.paper
    assignment := some { roomName := name, deskNumber := desk, side := side
                         serialNumber := serial } }

/-- The Side 2 half of one row iteration (intelligent-seating.ts lines
192-202): when the capacity is not yet reached and a second paper is locked,
pop its queue and seat the student on Side 2; returns the pushed assignments,
the new serial counter and the updated queues. -/
def side2Step (cap : Nat) (name : String) (desk serial1 : Nat)
    (p2n : Option String) (q1 : String → List Student) :
    List StudentAssignment × Nat × (String → List Student) :=
  if serial1 ≤ cap then
    match p2n with
    | some pb =>
      let r2 := shiftQ q1 pb
      match r2.1 with
      | some s => ([mkAssign s name desk Side.side2 serial1], serial1 + 1, r2.2)
      | none => (([] : List StudentAssignment), serial1, r2.2)
    | none => (([] : List StudentAssignment), serial1, q1)
  else (([] : List StudentAssignment), serial1, q1)

/-- The body of one row iteration of the desk-filling loop (intelligent-seating.ts
lines 175-207) at desk number `desk`.  `none` in the first component models the
`break`s (no students remaining, room capacity reached, or no paper found);
otherwise the step yields the assignments pushed at this desk, the new serial
counter and the sticky pair after the end-of-row reset.  The returned state
carries the updated queues and rotation pointer in every case. -/
def deskStep (cap : Nat) (name : String) (desk serial : Nat)
    (p1 p2 : Option String) (st : AllocState) :
    Option (List StudentAssignment × Nat × Option String × Option String) × AllocState :=
  if ¬hasRemaining st ∨ cap < serial then (none, st)
  else
    let e := ensurePair st p1 p2
    let p1n := e.1
    let p2n := e.2.1
    let st1 : AllocState := { st with idx := e.2.2 }
    match p1n with
    | none => (none, st1)
    | some pa =>
      let r1 := shiftQ st1.q pa
      let q1 := r1.2
      let step1 :=
        match r1.1 with
        | some s => ([mkAssign s name desk Side.side1 serial], serial + 1)
        | none => (([] : List StudentAssignment), serial)
      let s2r := side2Step cap name desk step1.2 p2n q1
      let q2 := s2r.2.2
      let p1f := if q2 pa = [] then none else some pa
      let p2f :=
        match p2n with
        | none => none
        | some pb => if q2 pb = [] then none else some pb
      (some (step1.1 ++ s2r.1, s2r.2.1, p1f, p2f), { st1 with q := q2 })

/-- The desk-filling loop of one room.  Desk numbers `deskBase + row` walk the
benches column-major and are exactly `1, 2, …, Σ perCol`, so the two nested
loops are rendered as one walk over consecutive desk numbers with `fuel`
desks left; the inner `break`s re-fire at every following column boundary and
therefore end the whole room, which `none` from `deskStep` models. -/
def fillDesks (cap : Nat) (name : String) :
    Nat → Nat → Nat → Option String → Option String → AllocState →
    List StudentAssignment × AllocState
  | 0, _, _, _, _, st => ([], st)
  | fuel + 1, desk, serial, p1, p2, st =>
    match deskStep cap name desk serial p1 p2 st with
    | (none, st') => ([], st')
    | (some (as, serial', p1', p2'), st') =>
      let r := fillDesks cap name fuel (desk + 1) serial' p1' p2' st'
      (as ++ r.1, r.2)

/-- Benches per column (intelligent-seating.ts lines 136-145): an explicit
`desksPerColumn` of matching length is used verbatim, otherwise
`ceil(capacity/2)` benches are spread as evenly as possible with the leftmost
columns taking the remainder. -/
def perColOf (room : Classroom) : List Nat :=
  let columns := max 1 room.numberOfColumns
  match room.desksPerColumn with
  | some dpc =>
    if dpc.length = columns then dpc
    else
      let benches := (room.totalCapacity + 1) / 2
      let base := benches / columns
      let rem := benches % columns
      (List.range columns).map fun i => base + (if i < rem then 1 else 0)
  | none =>
    let benches := (room.totalCapacity + 1) / 2
    let base := benches / columns
    let rem := benches % columns
    (List.range columns).map fun i => base + (if i < rem then 1 else 0)

/-- Allocate one room: serial numbers restart at 1, the sticky pair starts
null, and the desks `1 … Σ perCol` are walked in order. -/
def processRoom (st : AllocState) (room : Classroom) :
    List StudentAssignment × AllocState :=
  fillDesks room.totalCapacity room.roomName (perColOf room).sum 1 1 none none st

/-- The `for (const room of sorted)` loop.  The early `break` when no students
remain is behaviourally the identity on every later room (an empty state makes
`deskStep` stop immediately without touching the state), so the loop is a plain
fold. -/
def allocRooms : List Classroom → AllocState → List StudentAssignment × AllocState
  | [], st => ([], st)
  | room :: rest, st =>
    let r := processRoom st room
    let r2 := allocRooms rest r.2
    (r.1 ++ r2.1, r2.2)

/-- Room filling preference (4 columns first, then 5, then the rest). -/
def roomPref (cols : Nat) : Nat :=
  if cols = 4 then 0 else if cols = 5 then 1 else 2

/-- Ascending comparator of the classroom sort: preference, then roomName. -/
def roomLe (a b : Classroom) : Bool :=
  decide (roomPref a.numberOfColumns < roomPref b.numberOfColumns) ||
    (decide (roomPref a.numberOfColumns = roomPref b.numberOfColumns) &&
      strLe a.roomName b.roomName)

def sortRooms (classrooms : List Classroom) : List Classroom :=
  stableSort roomLe classrooms

/-- Ascending comparator of the per-paper roll-number sort. -/
def rollLe (a b : Student) : Bool :=
  decide (extractRollNumberNumeric a.rollNumber ≤ extractRollNumberNumeric b.rollNumber)

/-- The allocator's initial state: students bucketed by paper in
first-occurrence order, every bucket sorted ascending by the numeric roll
suffix, rotation pointer 0. -/
def initSt (students : List Student) : AllocState :=
  let buckets := groupKeyed (fun s : Student => s.paper) students
  { order := buckets.map (·.1)
    q := fun p => stableSort rollLe (lookupKeyed buckets p)
    idx := 0 }

/-- `intelligentSeating` from src/ai/flows/intelligent-seating.ts: the
allocator used by the app.  The source also defines `pop` and
`popDifferentPaper` helpers (lines 88-118) that nothing in the file calls;
they are omitted here. -/
def intelligentSeating (classrooms : List Classroom) (students : List Student) :
    SeatingOutput :=
  let r := allocRooms (sortRooms classrooms) (initSt students)
  { assignments := r.1, unassignedStudents := allQueues r.2 }

/-! ### Report generator (src/lib/print-utils.ts)

The assignment records handled by the generator carry the extra `branch` and
`semesterSection` fields of the `StudentAssignment` type from src/types. -/

structure PrintAssignment where
  rollNumber : String
  paper : String
  branch : String
  semesterSection : String
  assignment : Option SeatingAssignment
deriving DecidableEq

structure PrintReportSummary where
  paper : String
  fromRoll : String
  toRoll : String
  total : Nat
deriving DecidableEq

structure PrintReportData where
  classroom : Classroom
  summary : List PrintReportSummary
  columns : List (List (Option PrintAssignment))
  columnGroups : List String
  maxRowsInColumn : Nat
deriving DecidableEq

/-- `extractParts` from print-utils.ts: prefix and numeric suffix of a roll
number, with fallbacks for unexpected formats. -/
def extractParts (roll : String) : String × Int :=
  let parts := splitDash roll
  if parts.length < 2 then (roll, 0)
  else
    match parseIntJS (parts.getLastD "") with
    | some num =>
      let pre := String.intercalate "-" (parts.dropLast)
      (pre, num)
    | none => (roll, 0)

/-- The predicate of the `studentsInClassroom` filter:
`a.assignment?.roomName === classroom.roomName`. -/
def roomMatch (classroom : Classroom) (a : PrintAssignment) : Bool :=
  match a.assignment with
  | some sa => sa.roomName == classroom.roomName
  | none => false

/-- Ascending comparator on `a.assignment?.serialNumber || 0`. -/
def serialLe (a b : PrintAssignment) : Bool :=
  decide ((a.assignment.map (·.serialNumber)).getD 0 ≤
    (b.assignment.map (·.serialNumber)).getD 0)

/-- Summary grouping key: paper-branch-semesterSection. -/
def summaryKey (s : PrintAssignment) : String :=
  s.paper ++ "-" ++ s.branch ++ "-" ++ s.semesterSection

/-- One summary row built from a non-empty group (an empty group maps to
`none` and is filtered out, exactly as in the source). -/
def summaryRow (group : List PrintAssignment) : Option PrintReportSummary :=
  match group with
  | [] => none
  | g0 :: _ =>
    let rollNumbers := stableSort
      (fun a b => decide ((extractParts a).2 ≤ (extractParts b).2))
      (group.map (·.rollNumber))
    some { paper := g0.paper ++ " (" ++ g0.branch ++ " - " ++ g0.semesterSection ++ ")"
           fromRoll := rollNumbers.headD ""
           toRoll := rollNumbers.getLastD ""
           total := group.length }

/-- The summary table: group by (paper, branch, semesterSection) in
first-occurrence order, map groups to rows, sort rows by the composed label. -/
def buildSummary (studentsInClassroom : List PrintAssignment) :
    List PrintReportSummary :=
  let groups := groupKeyed summaryKey studentsInClassroom
  stableSort (fun a b => strLe a.paper b.paper)
    ((groups.map (·.2)).filterMap summaryRow)

/-- `benchesPerColumn` from print-utils.ts lines 74-85; the same computation
as `perColOf` in the allocator. -/
def benchesPerColumnOf (classroom : Classroom) : List Nat :=
  let columns := max 1 classroom.numberOfColumns
  match classroom.desksPerColumn with
  | some dpc =>
    if dpc.length = columns then dpc
    else
      let benches := (classroom.totalCapacity + 1) / 2
      let basePerCol := benches / columns
      let remainder := benches % columns
      (List.range columns).map fun i => basePerCol + (if i < remainder then 1 else 0)
  | none =>
    let benches := (classroom.totalCapacity + 1) / 2
    let basePerCol := benches / columns
    let remainder := benches % columns
    (List.range columns).map fun i => basePerCol + (if i < remainder then 1 else 0)

/-- The `deskNumber → {s1, s2}` lookup: later assignments on the same side of
the same desk overwrite earlier ones.  The filter guarantees `assignment` is
present; a missing one leaves the map unchanged. -/
def deskMapOf (l : List PrintAssignment) :
    Nat → Option PrintAssignment × Option PrintAssignment :=
  l.foldl
    (fun m s =>
      match s.assignment with
      | none => m
      | some sa =>
        fun d =>
          if d = sa.deskNumber then
            match sa.side with
            | Side.side1 => (some s, (m sa.deskNumber).2)
            | Side.side2 => ((m sa.deskNumber).1, some s)
          else m d)
    (fun _ => (none, none))

/-- The two sub-columns (Side 1 then Side 2) of each physical column, reading
desk numbers `offset+1 … offset+rows` from the lookup. -/
def columnsAux (dm : Nat → Option PrintAssignment × Option PrintAssignment) :
    List Nat → Nat → List (List (Option PrintAssignment))
  | [], _ => []
  | rows :: restBpc, offset =>
    let left := (List.range rows).map fun r => (dm (offset + r + 1)).1
    let right := (List.range rows).map fun r => (dm (offset + r + 1)).2
    left :: right :: columnsAux dm restBpc (offset + rows)

/-- `studentsInClassroom`: the assignments naming this room, ordered by
serial number. -/
def roomSorted (classroom : Classroom) (allAssignments : List PrintAssignment) :
    List PrintAssignment :=
  stableSort serialLe (allAssignments.filter (roomMatch classroom))

/-- The desk number preceding physical column `i`: the benches of the earlier
columns (`deskOffset` in the source). -/
def benchOffset (bpc : List Nat) (i : Nat) : Nat := (bpc.take i).sum

/-- One classroom's report (`generatePrintData`'s per-classroom body):
`none` when no assignment names this room. -/
def buildRoomReport (classroom : Classroom) (allAssignments : List PrintAssignment) :
    Option PrintReportData :=
  let studentsInClassroom := roomSorted classroom allAssignments
  if studentsInClassroom.isEmpty then none
  else
    let bpc := benchesPerColumnOf classroom
    let dm := deskMapOf studentsInClassroom
    let finalColumns := columnsAux dm bpc 0
    let maxRows := bpc.foldl max 0
    some { classroom := classroom
           summary := buildSummary studentsInClassroom
           columns := finalColumns.map fun sub =>
             sub ++ List.replicate (maxRows - sub.length) none
           columnGroups := bpc.flatMap fun _ => ["Roll No", "Roll No"]
           maxRowsInColumn := maxRows }

/-- `generatePrintData` from print-utils.ts: classrooms without matching
assignments are dropped by the final null filter. -/
def generatePrintData (classrooms : List Classroom)
    (allAssignments : List PrintAssignment) : List PrintReportData :=
  classrooms.filterMap fun c => buildRoomReport c allAssignments

/-! ### Layout described by the specification -/

/-- Modelled from the spec (§4.1 Desk Layout Builder): an explicit
`desksPerColumn` whose length equals the column count is used verbatim;
otherwise `benches = ceil(capacity/2)`, `base = benches / columns`,
`remainder = benches % columns`, and the first `remainder` columns get
`base + 1` while the rest get `base`. -/
def deskLayoutSpec (capacity columns : Nat) (dpc : Option (List Nat)) : List Nat :=
  let fallback :=
    let benches := (capacity + 1) / 2
    let base := benches / columns
    let remainder := benches % columns
    (List.range columns).map fun i => base + (if i < remainder then 1 else 0)
  match dpc with
  | some d => if d.length = columns then d else fallback
  | none => fallback

/-! ### The algorithmic allocator (src/ai/flows/algorithmic-seating.ts)

Its classroom/student records carry fewer fields; `Math.random()` draws are
modelled by an explicit stream `rand : Nat → Nat`, the k-th draw scaled by
`i + 1` becoming `rand k % (i + 1)`. -/

structure AlgoClassroom where
  roomName : String
  totalCapacity : Nat
deriving DecidableEq

structure AlgoStudent where
  rollNumber : String
  paper : String
deriving DecidableEq

structure AlgoAssignment where
  roomName : String
  deskNumber : Nat
  side : Side
deriving DecidableEq

structure AlgoStudentAssignment where
  rollNumber : String
  paper : String
  assignment : Option AlgoAssignment
deriving DecidableEq

structure AlgoOutput where
  assignments : List AlgoStudentAssignment
  unassignedStudents : List AlgoStudent
deriving DecidableEq

/-- A `seatTracker` entry. -/
structure Seat where
  roomName : String
  deskNumber : Nat
  side : Side
  occupied : Bool
  paper : Option String
  rollNumber : Option String
deriving DecidableEq

/-- `getClassId`: paper + "-" + semester, the semester being the second
'-'-part of the roll number (or "0"). -/
def getClassId (s : AlgoStudent) : String :=
  let rollParts := splitDash s.rollNumber
  let semester := if 2 ≤ rollParts.length then rollParts.getD 1 "" else "0"
  s.paper ++ "-" ++ semester

/-- Seat-tracker initialization: for every classroom, desks
`1 … ceil(capacity/2)` get a Side 1 seat, and a Side 2 seat while
`(desk-1)*2 + 2 ≤ capacity`. -/
def initSeats (classrooms : List AlgoClassroom) : List Seat :=
  classrooms.flatMap fun c =>
    (List.range ((c.totalCapacity + 1) / 2)).flatMap fun d0 =>
      let desk := d0 + 1
      ⟨c.roomName, desk, Side.side1, false, none, none⟩ ::
        (if (desk - 1) * 2 + 2 ≤ c.totalCapacity then
          [⟨c.roomName, desk, Side.side2, false, none, none⟩]
        else [])

/-- Swap two positions of a list (out-of-range indices are a no-op). -/
def listSwap (l : List α) (i j : Nat) : List α :=
  match l.get? i, l.get? j with
  | some a, some b => (l.set i b).set j a
  | _, _ => l

/-- The Fisher-Yates loop: swap index `i+1` with a drawn `j ≤ i+1`, counting
down; `k` indexes the random stream. -/
def fyAux (rand : Nat → Nat) : Nat → List α → Nat → List α × Nat
  | 0, l, k => (l, k)
  | i + 1, l, k =>
    fyAux rand i (listSwap l (i + 1) (rand k % (i + 2))) (k + 1)

/-- Fisher-Yates shuffle driven by the random stream. -/
def fyShuffle (rand : Nat → Nat) (l : List α) (k : Nat) : List α × Nat :=
  match l.length with
  | 0 => (l, k)
  | n + 1 => fyAux rand n l k

/-- `sameClassOnDesk`: some occupied seat on the other side of the same desk
holds a student of the same class id. -/
def sameClassOnDesk (tracker : List Seat) (students : List AlgoStudent)
    (seat : Seat) (student : AlgoStudent) : Bool :=
  tracker.any fun s =>
    if s.roomName == seat.roomName && s.deskNumber == seat.deskNumber &&
        s.side != seat.side && s.occupied then
      match s.rollNumber with
      | none => false
      | some r =>
        match students.find? (fun st => st.rollNumber == r) with
        | some other => getClassId other == getClassId student
        | none => false
    else false

/-- `samePaperOnDesk`: same check with the bare paper. -/
def samePaperOnDesk (tracker : List Seat) (students : List AlgoStudent)
    (seat : Seat) (student : AlgoStudent) : Bool :=
  tracker.any fun s =>
    if s.roomName == seat.roomName && s.deskNumber == seat.deskNumber &&
        s.side != seat.side && s.occupied then
      match s.rollNumber with
      | none => false
      | some r =>
        match students.find? (fun st => st.rollNumber == r) with
        | some other => other.paper == student.paper
        | none => false
    else false

/-- Scan the shuffled available seats for the first one passing both
anti-cheating checks. -/
def findSeat (tracker : List Seat) (students : List AlgoStudent)
    (student : AlgoStudent) : List Seat → Option Seat
  | [] => none
  | seat :: rest =>
    if sameClassOnDesk tracker students seat student then
      findSeat tracker students student rest
    else if samePaperOnDesk tracker students seat student then
      findSeat tracker students student rest
    else some seat

/-- Mark the chosen seat occupied by the student (seats are identified by
room, desk and side, which are unique in the tracker). -/
def occupySeat (tracker : List Seat) (seat : Seat) (st : AlgoStudent) : List Seat :=
  tracker.map fun t =>
    if t.roomName == seat.roomName && t.deskNumber == seat.deskNumber &&
        t.side == seat.side then
      { t with occupied := true, paper := some st.paper
               rollNumber := some st.rollNumber }
    else t

/-- The per-student placement loop: filter the free seats, shuffle them, take
the first valid one; students with no valid seat become unassigned. -/
def algoLoop (rand : Nat → Nat) (students : List AlgoStudent) :
    List AlgoStudent → List Seat → Nat →
    List AlgoStudentAssignment × List AlgoStudent
  | [], _, _ => ([], [])
  | st :: rest, tracker, k =>
    let avail := tracker.filter fun s => !s.occupied
    let sh := fyShuffle rand avail k
    match findSeat tracker students st sh.1 with
    | some seat =>
      let r := algoLoop rand students rest (occupySeat tracker seat st) sh.2
      (⟨st.rollNumber, st.paper, some ⟨seat.roomName, seat.deskNumber, seat.side⟩⟩ :: r.1,
        r.2)
    | none =>
      let r := algoLoop rand students rest tracker sh.2
      (r.1, st :: r.2)

/-- `algorithmicSeating` from src/ai/flows/algorithmic-seating.ts.  The guard
returns everything unassigned when the students outnumber the total capacity.
The source also builds a sorted `studentsByPaper` record (lines 67-108) that
is never read afterwards, and calls a validator whose result is only logged;
neither affects the output, so neither appears here. -/
def algorithmicSeating (rand : Nat → Nat) (classrooms : List AlgoClassroom)
    (students : List AlgoStudent) : AlgoOutput :=
  let totalCapacity := (classrooms.map (·.totalCapacity)).sum
  if totalCapacity < students.length then
    { assignments := [], unassignedStudents := students }
  else
    let tracker := initSeats classrooms
    let sh := fyShuffle rand students 0
    let r := algoLoop rand students sh.1 tracker sh.2
    { assignments := r.1, unassignedStudents := r.2 }

/-! ### Keys and views used by the statements -/

/-- The (rollNumber, paper) key recorded in an assignment. -/
def keyA (a : StudentAssignment) : String × String := (a.rollNumber, a.paper)

/-- The (rollNumber, paper) key of a student. -/
def keyS (s : Student) : String × String := (s.rollNumber, s.paper)

/-- Does this assignment place its student in the room called `name`? -/
def roomFilter (name : String) (a : StudentAssignment) : Bool :=
  match a.assignment with
  | some sa => sa.roomName == name
  | none => false

/-- The serial numbers carried by a list of assignments, in list order. -/
def serialsOf (l : List StudentAssignment) : List Nat :=
  l.filterMap fun a => a.assignment.map (·.serialNumber)

/-- The state invariant threaded through allocation: the paper order is
duplicate-free, papers outside it have empty queues, and every queued student
belongs to its queue's paper. -/
structure QInv (st : AllocState) : Prop where
  nodup : st.order.Nodup
  offOrder : ∀ p, p ∉ st.order → st.q p = []
  paperCoh : ∀ p s, s ∈ st.q p → s.paper = p

/-! ### Concrete instances used by witnesses and counterexamples -/

def roomOneSeat : Classroom := ⟨"R1", 1, 1, none⟩
def roomTwoSeats : Classroom := ⟨"R1", 2, 1, none⟩
def stuP1 : Student := ⟨"CT-3-1", "P", "CT", "3-A"⟩
def stuP2 : Student := ⟨"CT-3-2", "P", "CT", "3-A"⟩
def stuP5 : Student := ⟨"CT-5-7", "P", "CT", "5-B"⟩
def stuQ1 : Student := ⟨"CT-3-9", "Q", "CT", "3-A"⟩

def benchRoom32 : Classroom := ⟨"R1", 10, 2, some [3, 2]⟩
def printAsg (roll : String) (desk : Nat) (side : Side) (serial : Nat) :
    PrintAssignment :=
  ⟨roll, "P", "CT", "3-A", some ⟨"R1", desk, side, serial⟩⟩
def benchAsgs : List PrintAssignment :=
  [printAsg "CT-3-1" 1 Side.side1 1, printAsg "CT-3-2" 1 Side.side2 2,
   printAsg "CT-3-3" 2 Side.side1 3, printAsg "CT-3-4" 4 Side.side1 4]

def overflowRoom : Classroom := ⟨"R9", 10, 1, some [1]⟩
def overflowAsg : PrintAssignment :=
  ⟨"CT-3-9", "P", "CT", "3-A", some ⟨"R9", 5, Side.side1, 1⟩⟩

/-! ## Lemmas: stable sort -/

theorem insortOne_perm (le : α → α → Bool) (x : α) :
    ∀ l : List α, (insortOne le l x).Perm (x :: l)
  | [] => List.Perm.refl _
  | y :: ys => by
    simp only [insortOne]
    split
    · exact ((insortOne_perm le x ys).cons y).trans (List.Perm.swap x y ys)
    · exact List.Perm.refl _

theorem foldl_insortOne_perm (le : α → α → Bool) :
    ∀ (l acc : List α), (l.foldl (insortOne le) acc).Perm (acc ++ l)
  | [], acc => by simp
  | x :: l, acc => by
    simp only [List.foldl_cons]
    refine (foldl_insortOne_perm le l (insortOne le acc x)).trans ?_
    refine ((insortOne_perm le x acc).append_right l).trans ?_
    simpa using List.perm_middle.symm

theorem stableSort_perm (le : α → α → Bool) (l : List α) :
    (stableSort le l).Perm l := by
  simpa [stableSort] using foldl_insortOne_perm le l []

theorem mem_stableSort {le : α → α → Bool} {l : List α} {a : α} :
    a ∈ stableSort le l ↔ a ∈ l :=
  (stableSort_perm le l).mem_iff

theorem insortOne_pairwise {le : α → α → Bool}
    (htrans : ∀ a b c, le a b = true → le b c = true → le a c = true)
    (htot : ∀ a b, le a b = true ∨ le b a = true) (x : α) :
    ∀ l : List α, l.Pairwise (fun a b => le a b = true) →
      (insortOne le l x).Pairwise (fun a b => le a b = true)
  | [], _ => by simp [insortOne]
  | y :: ys, h => by
    rw [List.pairwise_cons] at h
    simp only [insortOne]
    split
    · rename_i hyx
      rw [List.pairwise_cons]
      refine ⟨fun z hz => ?_, insortOne_pairwise htrans htot x ys h.2⟩
      rcases List.mem_cons.1 ((insortOne_perm le x ys).mem_iff.1 hz) with hz | hz
      · exact hz ▸ hyx
      · exact h.1 z hz
    · rename_i hyx
      have hxy : le x y = true := by
        rcases htot x y with h' | h'
        · exact h'
        · exact absurd h' hyx
      rw [List.pairwise_cons]
      refine ⟨fun z hz => ?_, List.pairwise_cons.2 h⟩
      rcases List.mem_cons.1 hz with hz | hz
      · exact hz ▸ hxy
      · exact htrans x y z hxy (h.1 z hz)

theorem stableSort_pairwise {le : α → α → Bool}
    (htrans : ∀ a b c, le a b = true → le b c = true → le a c = true)
    (htot : ∀ a b, le a b = true ∨ le b a = true) (l : List α) :
    (stableSort le l).Pairwise (fun a b => le a b = true) := by
  suffices h : ∀ (l acc : List α), acc.Pairwise (fun a b => le a b = true) →
      (l.foldl (insortOne le) acc).Pairwise (fun a b => le a b = true) by
    exact h l [] (by simp)
  intro l
  induction l with
  | nil => intro acc h; simpa using h
  | cons x t ih =>
    intro acc h
    exact ih (insortOne le acc x) (insortOne_pairwise htrans htot x acc h)

/-! ## Lemmas: keyed grouping -/

theorem lookupKeyed_insertKeyed (key : α → String) (bs : List (String × List α))
    (x : α) (p : String) :
    lookupKeyed (insertKeyed key bs x) p =
      lookupKeyed bs p ++ (if key x = p then [x] else []) := by
  induction bs with
  | nil =>
    simp only [insertKeyed, lookupKeyed]
    split
    · rename_i h; simp [h]
    · rename_i h; simp [h]
  | cons hd t ih =>
    obtain ⟨k, l⟩ := hd
    simp only [insertKeyed]
    split
    · rename_i hk
      simp only [lookupKeyed]
      split
      · rename_i hp; simp [hk ▸ hp]
      · rename_i hp; simp [lookupKeyed, (hk ▸ hp : ¬key x = p)]
    · rename_i hk
      simp only [lookupKeyed]
      split
      · rename_i hp
        have : ¬key x = p := fun h => hk (hp.trans h.symm)
        simp [this]
      · exact ih

theorem lookupKeyed_groupKeyed (key : α → String) (xs : List α) (p : String) :
    lookupKeyed (groupKeyed key xs) p = xs.filter (fun x => key x == p) := by
  suffices h : ∀ acc, lookupKeyed (xs.foldl (insertKeyed key) acc) p =
      lookupKeyed acc p ++ xs.filter (fun x => key x == p) by
    simpa [groupKeyed, lookupKeyed] using h []
  induction xs with
  | nil => intro acc; simp
  | cons x t ih =>
    intro acc
    simp only [List.foldl_cons, List.filter_cons, ih, lookupKeyed_insertKeyed,
      List.append_assoc]
    by_cases hx : key x = p
    · simp [hx]
    · simp [hx]

theorem keys_insertKeyed (key : α → String) (bs : List (String × List α)) (x : α) :
    (insertKeyed key bs x).map (·.1) =
      if key x ∈ bs.map (·.1) then bs.map (·.1) else bs.map (·.1) ++ [key x] := by
  induction bs with
  | nil => simp [insertKeyed]
  | cons hd t ih =>
    obtain ⟨k, l⟩ := hd
    simp only [insertKeyed]
    split
    · rename_i hk
      simp [hk.symm]
    · rename_i hk
      have hne : ¬key x = k := fun h => hk h.symm
      simp only [List.map_cons, ih, List.mem_cons]
      by_cases hm : key x ∈ t.map (·.1)
      · simp [hm, hne]
      · simp [hm, hne]

theorem keys_groupKeyed_nodup (key : α → String) (xs : List α) :
    ((groupKeyed key xs).map (·.1)).Nodup := by
  suffices h : ∀ acc : List (String × List α), (acc.map (·.1)).Nodup →
      ((xs.foldl (insertKeyed key) acc).map (·.1)).Nodup by
    exact h [] (by simp)
  induction xs with
  | nil => intro acc h; simpa using h
  | cons x t ih =>
    intro acc h
    refine ih (insertKeyed key acc x) ?_
    rw [keys_insertKeyed]
    split
    · exact h
    · rename_i hm
      simp [List.nodup_append, h, hm]

theorem lookupKeyed_eq_nil_of_not_mem {bs : List (String × List α)} {p : String}
    (h : p ∉ bs.map (·.1)) : lookupKeyed bs p = [] := by
  induction bs with
  | nil => rfl
  | cons hd t ih =>
    obtain ⟨k, l⟩ := hd
    simp only [List.map_cons, List.mem_cons] at h
    push_neg at h
    simp only [lookupKeyed]
    split
    · rename_i hk; exact absurd hk.symm h.1
    · exact ih h.2

theorem key_mem_keys_groupKeyed (key : α → String) {xs : List α} {x : α}
    (hx : x ∈ xs) : key x ∈ (groupKeyed key xs).map (·.1) := by
  by_contra hm
  have h0 := lookupKeyed_eq_nil_of_not_mem hm
  rw [lookupKeyed_groupKeyed] at h0
  have : x ∈ xs.filter (fun y => key y == key x) := by
    simp [List.mem_filter, hx]
  rw [h0] at this
  exact absurd this (List.not_mem_nil x)

/-! Pointwise congruences for `flatMap`. -/

theorem flatMap_congr_mem {l : List α} {f g : α → List β}
    (h : ∀ a ∈ l, f a = g a) : l.flatMap f = l.flatMap g := by
  induction l with
  | nil => rfl
  | cons x t ih =>
    simp only [List.flatMap_cons]
    rw [h x (List.mem_cons_self x t), ih fun a ha => h a (List.mem_cons_of_mem x ha)]

theorem flatMap_perm_mem {l : List α} {f g : α → List β}
    (h : ∀ a ∈ l, (f a).Perm (g a)) : (l.flatMap f).Perm (l.flatMap g) := by
  induction l with
  | nil => exact List.Perm.refl _
  | cons x t ih =>
    simp only [List.flatMap_cons]
    exact (h x (List.mem_cons_self x t)).append
      (ih fun a ha => h a (List.mem_cons_of_mem x ha))

/-- Partition of a list by a complete, duplicate-free list of keys. -/
theorem flatMap_filter_key_perm (key : α → String) :
    ∀ (ks : List String) (ss : List α), ks.Nodup → (∀ s ∈ ss, key s ∈ ks) →
      (ks.flatMap fun p => ss.filter fun x => key x == p).Perm ss
  | [], ss, _, hcov => by
    have : ss = [] := by
      cases ss with
      | nil => rfl
      | cons a t => exact absurd (hcov a (List.mem_cons_self a t)) (List.not_mem_nil _)
    simp [this]
  | k :: kt, ss, hnd, hcov => by
    rw [List.nodup_cons] at hnd
    simp only [List.flatMap_cons]
    have hpk : ∀ p ∈ kt, p ≠ k := fun p hp h => hnd.1 (h ▸ hp)
    have htail : (kt.flatMap fun p => ss.filter fun x => key x == p) =
        kt.flatMap fun p => (ss.filter fun x => !(key x == k)).filter
          fun x => key x == p := by
      refine flatMap_congr_mem fun p hp => ?_
      rw [List.filter_filter]
      refine List.filter_congr fun x _ => ?_
      by_cases hxp : key x = p
      · have hxk : ¬key x = k := fun h => hpk p hp (hxp.symm.trans h)
        simp only [hxp, hxk]
        simp [hpk p hp]
      · simp [hxp]
    rw [htail]
    have ih := flatMap_filter_key_perm key kt (ss.filter fun x => !(key x == k))
      hnd.2 (fun s hs => by
        rw [List.mem_filter] at hs
        rcases List.mem_cons.1 (hcov s hs.1) with h | h
        · rw [h] at hs; simp at hs
        · exact h)
    refine (List.Perm.append_left _ ih).trans ?_
    exact List.filter_append_perm _ ss

/-! ## Lemmas: the allocator's initial state -/

theorem initSt_q (students : List Student) (p : String) :
    (initSt students).q p =
      stableSort rollLe (students.filter fun s => s.paper == p) := by
  simp [initSt, lookupKeyed_groupKeyed]

theorem qInv_initSt (students : List Student) : QInv (initSt students) := by
  refine ⟨?_, ?_, ?_⟩
  · exact keys_groupKeyed_nodup _ students
  · intro p hp
    rw [initSt_q]
    have : students.filter (fun s => s.paper == p) = [] := by
      rw [List.filter_eq_nil_iff]
      intro s hs hps
      rw [beq_iff_eq] at hps
      exact hp (hps ▸ key_mem_keys_groupKeyed (fun s : Student => s.paper) hs)
    rw [this]
    rfl
  · intro p s hs
    rw [initSt_q, mem_stableSort, List.mem_filter, beq_iff_eq] at hs
    exact hs.2

theorem allQueues_initSt_perm (students : List Student) :
    (allQueues (initSt students)).Perm students := by
  unfold allQueues initSt
  simp only
  refine List.Perm.trans ?_ (flatMap_filter_key_perm (fun s : Student => s.paper)
    ((groupKeyed (fun s : Student => s.paper) students).map (·.1)) students
    (keys_groupKeyed_nodup _ students)
    (fun s hs => key_mem_keys_groupKeyed _ hs))
  refine flatMap_perm_mem fun p _ => ?_
  rw [lookupKeyed_groupKeyed]
  exact stableSort_perm _ _

/-! ## Lemmas: the round-robin pointer and the sticky pair -/

theorem nextPaperAux_some {order : List String} {q : String → List Student}
    {exclude : Option String} :
    ∀ fuel idx {p : String} {idx' : Nat}, fuel ≤ order.length →
      nextPaperAux order q exclude fuel idx = (some p, idx') →
      p ∈ order ∧ q p ≠ [] ∧ exclude ≠ some p
  | 0, idx, p, idx', _, h => by simp [nextPaperAux] at h
  | fuel + 1, idx, p, idx', hf, h => by
    rw [nextPaperAux] at h
    split at h
    · rename_i hc
      have hlen : 0 < order.length := Nat.lt_of_lt_of_le (Nat.succ_pos fuel) hf
      have hidx : idx % order.length < order.length := Nat.mod_lt _ hlen
      cases h
      refine ⟨?_, hc.2, hc.1⟩
      rw [List.getD_eq_getElem order "" hidx]
      exact List.getElem_mem hidx
    · exact nextPaperAux_some fuel _ (Nat.le_of_succ_le hf) h

theorem nextPaperFrom_some {st : AllocState} {exclude : Option String}
    {p : String} {idx' : Nat} (h : nextPaperFrom st exclude = (some p, idx')) :
    p ∈ st.order ∧ st.q p ≠ [] ∧ exclude ≠ some p :=
  nextPaperAux_some st.order.length st.idx (Nat.le_refl _) h

theorem refreshP1_some {st : AllocState} {p1 : Option String} {a : String}
    (h : (refreshP1 st p1).1 = some a) : st.q a ≠ [] := by
  rcases p1 with _ | b
  · rcases hE : nextPaperFrom st none with ⟨po, io⟩
    rw [refreshP1, hE] at h
    simp only at h
    subst h
    exact (nextPaperFrom_some hE).2.1
  · rw [refreshP1] at h
    split at h
    · rcases hE : nextPaperFrom st none with ⟨po, io⟩
      rw [hE] at h
      simp only at h
      subst h
      exact (nextPaperFrom_some hE).2.1
    · rename_i hb
      simp only at h
      cases h
      exact hb

theorem refreshP2_some {st : AllocState} {p1n p2 : Option String} {b : String}
    (h : (refreshP2 st p1n p2).1 = some b) : st.q b ≠ [] ∧ p1n ≠ some b := by
  rcases p2 with _ | c
  · rcases hE : nextPaperFrom st p1n with ⟨po, io⟩
    rw [refreshP2, hE] at h
    simp only at h
    subst h
    exact ⟨(nextPaperFrom_some hE).2.1, (nextPaperFrom_some hE).2.2⟩
  · rw [refreshP2] at h
    split at h
    · rcases hE : nextPaperFrom st p1n with ⟨po, io⟩
      rw [hE] at h
      simp only at h
      subst h
      exact ⟨(nextPaperFrom_some hE).2.1, (nextPaperFrom_some hE).2.2⟩
    · rename_i hc
      push_neg at hc
      simp only at h
      cases h
      exact ⟨hc.1, hc.2⟩

/-- What `ensurePair` guarantees about the pair it returns: each named paper
has a non-empty queue, and the two papers differ. -/
theorem ensurePair_spec (st : AllocState) (p1 p2 : Option String) :
    (∀ a, (ensurePair st p1 p2).1 = some a → st.q a ≠ []) ∧
    (∀ b, (ensurePair st p1 p2).2.1 = some b →
      st.q b ≠ [] ∧ (ensurePair st p1 p2).1 ≠ some b) := by
  unfold ensurePair
  simp only
  constructor
  · intro a ha
    exact refreshP1_some ha
  · intro b hb
    have h2 := refreshP2_some hb
    exact ⟨h2.1, h2.2⟩

/-- Popping the head of one listed queue permutes the gathered remainder. -/
theorem flatMap_update_perm {order : List String} {q : String → List Student}
    {pa : String} {s1 : Student} {t1 : List Student}
    (hnd : order.Nodup) (hmem : pa ∈ order) (hq : q pa = s1 :: t1) :
    (order.flatMap q).Perm
      (s1 :: order.flatMap fun p' => if p' = pa then t1 else q p') := by
  obtain ⟨o1, o2, rfl⟩ := List.append_of_mem hmem
  rw [List.nodup_append] at hnd
  have hpa1 : pa ∉ o1 := fun h => hnd.2.2 h (List.mem_cons_self pa o2)
  have hpa2 : pa ∉ o2 := (List.nodup_cons.1 hnd.2.1).1
  have ho1 : (o1.flatMap fun p' => if p' = pa then t1 else q p') = o1.flatMap q :=
    flatMap_congr_mem fun p hp => by
      have : ¬p = pa := fun h => hpa1 (h ▸ hp)
      simp [this]
  have ho2 : (o2.flatMap fun p' => if p' = pa then t1 else q p') = o2.flatMap q :=
    flatMap_congr_mem fun p hp => by
      have : ¬p = pa := fun h => hpa2 (h ▸ hp)
      simp [this]
  simp only [List.flatMap_append, List.flatMap_cons, ho1, ho2, if_pos rfl, hq]
  have : o1.flatMap q ++ (s1 :: t1 ++ o2.flatMap q) =
      o1.flatMap q ++ s1 :: (t1 ++ o2.flatMap q) := by simp
  rw [this]
  exact List.perm_middle

/-- `QInv` transfers along pointwise queue shrinking. -/
theorem qInv_of_sub {st st' : AllocState} (hinv : QInv st)
    (horder : st'.order = st.order)
    (hsub : ∀ p s, s ∈ st'.q p → s ∈ st.q p) : QInv st' := by
  refine ⟨horder ▸ hinv.nodup, ?_, ?_⟩
  · intro p hp
    rw [List.eq_nil_iff_forall_not_mem]
    intro s hs
    have := hsub p s hs
    rw [hinv.offOrder p (horder ▸ hp)] at this
    exact absurd this (List.not_mem_nil s)
  · intro p s hs
    exact hinv.paperCoh p s (hsub p s hs)

/-! Branch equations for `side2Step`. -/

theorem side2Step_overCap {cap : Nat} {name : String} {desk serial1 : Nat}
    {p2n : Option String} {q1 : String → List Student} (h : ¬serial1 ≤ cap) :
    side2Step cap name desk serial1 p2n q1 = ([], serial1, q1) := by
  simp [side2Step, h]

theorem side2Step_noPaper (cap : Nat) (name : String) (desk serial1 : Nat)
    (q1 : String → List Student) :
    side2Step cap name desk serial1 none q1 = ([], serial1, q1) := by
  simp [side2Step]

theorem side2Step_pop {cap : Nat} {name : String} {desk serial1 : Nat}
    {pb : String} {q1 : String → List Student} {s2 : Student}
    {t2 : List Student} (hcap : serial1 ≤ cap) (hq : q1 pb = s2 :: t2) :
    side2Step cap name desk serial1 (some pb) q1 =
      ([mkAssign s2 name desk Side.side2 serial1], serial1 + 1,
        fun p' => if p' = pb then t2 else q1 p') := by
  simp [side2Step, shiftQ, hcap, hq]

theorem side2Step_popEmpty {cap : Nat} {name : String} {desk serial1 : Nat}
    {pb : String} {q1 : String → List Student} (hcap : serial1 ≤ cap)
    (hq : q1 pb = []) :
    side2Step cap name desk serial1 (some pb) q1 = ([], serial1, q1) := by
  simp [side2Step, shiftQ, hcap, hq]

theorem deskStep_stop {cap : Nat} {name : String} {desk serial : Nat}
    {p1 p2 : Option String} {st st' : AllocState}
    (h : (deskStep cap name desk serial p1 p2 st) = (none, st')) :
    st'.q = st.q ∧ st'.order = st.order := by
  rw [deskStep] at h
  split at h
  · cases h; exact ⟨rfl, rfl⟩
  · rcases hE : ensurePair st p1 p2 with ⟨p1n, p2n, idx2⟩
    rw [hE] at h
    simp only at h
    rcases p1n with _ | pa
    · cases h; exact ⟨rfl, rfl⟩
    · rcases hq : st.q pa with _ | ⟨s1, t1⟩
      · exact absurd hq ((ensurePair_spec st p1 p2).1 pa (by rw [hE]))
      simp only [shiftQ, hq] at h
      exact absurd h (by simp)

/-- What one successful desk step looks like: the state only shrinks queue
heads, the serial counter advances by the number of seats filled, each filled
seat corresponds to a popped student, and the step fills either Side 1 alone
or Side 1 and Side 2 with students of two different papers. -/
theorem deskStep_some {cap : Nat} {name : String} {desk serial : Nat}
    {p1 p2 : Option String} {st : AllocState}
    {as : List StudentAssignment} {serial2 : Nat} {p1f p2f : Option String}
    {st' : AllocState} (hinv : QInv st)
    (h : deskStep cap name desk serial p1 p2 st =
      (some (as, serial2, p1f, p2f), st')) :
    st'.order = st.order ∧ serial ≤ cap ∧ serial2 = serial + as.length ∧
    (∀ p s, s ∈ st'.q p → s ∈ st.q p) ∧
    (∃ popped : List Student, (allQueues st).Perm (popped ++ allQueues st') ∧
      as.map keyA = popped.map keyS) ∧
    ((∃ s1 : Student, as = [mkAssign s1 name desk Side.side1 serial]) ∨
     (∃ s1 s2 : Student, s1.paper ≠ s2.paper ∧ serial + 1 ≤ cap ∧
       as = [mkAssign s1 name desk Side.side1 serial,
             mkAssign s2 name desk Side.side2 (serial + 1)])) := by
  rw [deskStep] at h
  split at h
  · exact absurd h (by simp)
  · rename_i hgo
    push_neg at hgo
    have hsc : serial ≤ cap := hgo.2
    rcases hE : ensurePair st p1 p2 with ⟨p1n, p2n, idx2⟩
    rw [hE] at h
    simp only at h
    rcases p1n with _ | pa
    · exact absurd h (by simp)
    have hqa : st.q pa ≠ [] := (ensurePair_spec st p1 p2).1 pa (by rw [hE])
    have hpamem : pa ∈ st.order := by
      by_contra hx; exact hqa (hinv.offOrder pa hx)
    rcases hq : st.q pa with _ | ⟨s1, t1⟩
    · exact absurd hq hqa
    have hs1pa : s1.paper = pa := hinv.paperCoh pa s1 (by rw [hq]; exact List.mem_cons_self _ _)
    simp only [shiftQ, hq] at h
    by_cases hcap2 : serial + 1 ≤ cap
    · rcases p2n with _ | pb
      · -- no second paper: Side 1 only
        rw [side2Step_noPaper] at h
        simp only [Prod.mk.injEq, Option.some.injEq, List.append_nil] at h
        obtain ⟨⟨has, hser, hp1f2, hp2f2⟩, hst⟩ := h
        subst has hser hst
        refine ⟨rfl, hsc, by simp, ?_, ?_, Or.inl ⟨s1, rfl⟩⟩
        · intro p s hs
          change s ∈ (if p = pa then t1 else st.q p) at hs
          by_cases hp : p = pa
          · subst hp
            rw [if_pos rfl] at hs
            rw [hq]
            exact List.mem_cons_of_mem _ hs
          · rw [if_neg hp] at hs
            exact hs
        · refine ⟨[s1], ?_, by simp [keyA, keyS, mkAssign]⟩
          exact flatMap_update_perm hinv.nodup hpamem hq
      · -- second paper pb
        have hpb := (ensurePair_spec st p1 p2).2 pb (by rw [hE])
        have hqb : st.q pb ≠ [] := hpb.1
        have hpbne : pb ≠ pa := by
          intro he
          exact hpb.2 (by rw [hE, he])
        have hpbmem : pb ∈ st.order := by
          by_contra hx; exact hqb (hinv.offOrder pb hx)
        rcases hq2 : st.q pb with _ | ⟨s2, t2⟩
        · exact absurd hq2 hqb
        have hs2pb : s2.paper = pb := hinv.paperCoh pb s2 (by rw [hq2]; exact List.mem_cons_self _ _)
        have hqq : (fun p' => if p' = pa then t1 else st.q p') pb = s2 :: t2 := by
          simp only
          rw [if_neg hpbne, hq2]
        rw [side2Step_pop hcap2 hqq] at h
        simp only [Prod.mk.injEq, Option.some.injEq, List.cons_append,
          List.nil_append] at h
        obtain ⟨⟨has, hser, hp1f2, hp2f2⟩, hst⟩ := h
        subst has hser hst
        refine ⟨rfl, hsc, by simp, ?_, ?_, Or.inr ⟨s1, s2, ?_, hcap2, rfl⟩⟩
        · intro p s hs
          change s ∈ (if p = pb then t2 else if p = pa then t1 else st.q p) at hs
          by_cases hp : p = pb
          · subst hp
            rw [if_pos rfl] at hs
            rw [hq2]
            exact List.mem_cons_of_mem _ hs
          · rw [if_neg hp] at hs
            by_cases hp' : p = pa
            · subst hp'
              rw [if_pos rfl] at hs
              rw [hq]
              exact List.mem_cons_of_mem _ hs
            · rw [if_neg hp'] at hs
              exact hs
        · refine ⟨[s1, s2], ?_, by simp [keyA, keyS, mkAssign]⟩
          have h1 := flatMap_update_perm hinv.nodup hpamem hq
          have h2 := flatMap_update_perm
            (q := fun p' => if p' = pa then t1 else st.q p') hinv.nodup hpbmem hqq
          exact h1.trans (h2.cons s1)
        · rw [hs1pa, hs2pb]
          exact fun he => hpbne he.symm
    · -- serial + 1 > cap: Side 1 only
      rw [side2Step_overCap hcap2] at h
      simp only [Prod.mk.injEq, Option.some.injEq, List.append_nil] at h
      obtain ⟨⟨has, hser, hp1f2, hp2f2⟩, hst⟩ := h
      subst has hser hst
      refine ⟨rfl, hsc, by simp, ?_, ?_, Or.inl ⟨s1, rfl⟩⟩
      · intro p s hs
        change s ∈ (if p = pa then t1 else st.q p) at hs
        by_cases hp : p = pa
        · subst hp
          rw [if_pos rfl] at hs
          rw [hq]
          exact List.mem_cons_of_mem _ hs
        · rw [if_neg hp] at hs
          exact hs
      · refine ⟨[s1], ?_, by simp [keyA, keyS, mkAssign]⟩
        exact flatMap_update_perm hinv.nodup hpamem hq

/-! ## Lemmas: the desk-filling loop -/

theorem fillDesks_state (cap : Nat) (name : String) :
    ∀ (fuel desk serial : Nat) (p1 p2 : Option String) (st : AllocState),
      QInv st →
      (fillDesks cap name fuel desk serial p1 p2 st).2.order = st.order ∧
      QInv (fillDesks cap name fuel desk serial p1 p2 st).2 ∧
      ∃ popped : List Student,
        (allQueues st).Perm
          (popped ++ allQueues (fillDesks cap name fuel desk serial p1 p2 st).2) ∧
        (fillDesks cap name fuel desk serial p1 p2 st).1.map keyA =
          popped.map keyS
  | 0, desk, serial, p1, p2, st, hinv => by
    rw [fillDesks]
    exact ⟨rfl, hinv, [], List.Perm.refl _, rfl⟩
  | fuel + 1, desk, serial, p1, p2, st, hinv => by
    rw [fillDesks]
    rcases hds : deskStep cap name desk serial p1 p2 st with ⟨o, st1⟩
    rcases o with _ | ⟨as0, serial', p1', p2'⟩
    · simp only
      obtain ⟨hq1, ho1⟩ := deskStep_stop hds
      have hall : allQueues st1 = allQueues st := by
        unfold allQueues; rw [hq1, ho1]
      refine ⟨ho1, qInv_of_sub hinv ho1 (fun p s hs => by rw [hq1] at hs; exact hs),
        [], ?_, rfl⟩
      rw [hall]
      exact List.Perm.refl _
    · simp only
      obtain ⟨ho1, _, hser, hsub, ⟨pop0, hperm0, hmap0⟩, _⟩ := deskStep_some hinv hds
      have hinv1 : QInv st1 := qInv_of_sub hinv ho1 hsub
      obtain ⟨ho2, hinv2, ⟨pop1, hperm1, hmap1⟩⟩ :=
        fillDesks_state cap name fuel (desk + 1) serial' p1' p2' st1 hinv1
      refine ⟨ho2.trans ho1, hinv2, pop0 ++ pop1, ?_, ?_⟩
      · refine hperm0.trans ?_
        rw [List.append_assoc]
        exact hperm1.append_left pop0
      · simp only [List.map_append, hmap0, hmap1]

theorem fillDesks_assigns (cap : Nat) (name : String) :
    ∀ (fuel desk serial : Nat) (p1 p2 : Option String) (st : AllocState),
      QInv st →
      ∀ a ∈ (fillDesks cap name fuel desk serial p1 p2 st).1,
        ∃ sa, a.assignment = some sa ∧ sa.roomName = name ∧
          desk ≤ sa.deskNumber ∧ serial ≤ sa.serialNumber ∧ sa.serialNumber ≤ cap
  | 0, desk, serial, p1, p2, st, hinv => by
    rw [fillDesks]
    intro a ha
    exact absurd ha (List.not_mem_nil a)
  | fuel + 1, desk, serial, p1, p2, st, hinv => by
    rw [fillDesks]
    rcases hds : deskStep cap name desk serial p1 p2 st with ⟨o, st1⟩
    rcases o with _ | ⟨as0, serial', p1', p2'⟩
    · simp only
      intro a ha
      exact absurd ha (List.not_mem_nil a)
    · simp only
      obtain ⟨ho1, hsc, hser, hsub, _, hshape⟩ := deskStep_some hinv hds
      have hinv1 : QInv st1 := qInv_of_sub hinv ho1 hsub
      intro a ha
      rcases List.mem_append.1 ha with ha0 | har
      · rcases hshape with ⟨s1, rfl⟩ | ⟨s1, s2, hpp, hc2, rfl⟩
        · rcases List.mem_singleton.1 ha0 with rfl
          exact ⟨_, rfl, rfl, Nat.le_refl _, Nat.le_refl _, hsc⟩
        · rcases List.mem_cons.1 ha0 with rfl | ha0
          · exact ⟨_, rfl, rfl, Nat.le_refl _, Nat.le_refl _, hsc⟩
          · rcases List.mem_singleton.1 ha0 with rfl
            exact ⟨_, rfl, rfl, Nat.le_refl _, Nat.le_succ_of_le (Nat.le_refl _), hc2⟩
      · obtain ⟨sa, h1, h2, h3, h4, h5⟩ :=
          fillDesks_assigns cap name fuel (desk + 1) serial' p1' p2' st1 hinv1 a har
        refine ⟨sa, h1, h2, Nat.le_of_succ_le h3, ?_, h5⟩
        calc serial ≤ serial' := hser ▸ Nat.le_add_right _ _
          _ ≤ sa.serialNumber := h4

theorem fillDesks_serials (cap : Nat) (name : String) :
    ∀ (fuel desk serial : Nat) (p1 p2 : Option String) (st : AllocState),
      QInv st →
      serialsOf (fillDesks cap name fuel desk serial p1 p2 st).1 =
        List.range' serial (fillDesks cap name fuel desk serial p1 p2 st).1.length
  | 0, desk, serial, p1, p2, st, hinv => by
    rw [fillDesks]
    rfl
  | fuel + 1, desk, serial, p1, p2, st, hinv => by
    rw [fillDesks]
    rcases hds : deskStep cap name desk serial p1 p2 st with ⟨o, st1⟩
    rcases o with _ | ⟨as0, serial', p1', p2'⟩
    · simp only
      rfl
    · simp only
      obtain ⟨ho1, hsc, hser, hsub, _, hshape⟩ := deskStep_some hinv hds
      have hinv1 : QInv st1 := qInv_of_sub hinv ho1 hsub
      have ih := fillDesks_serials cap name fuel (desk + 1) serial' p1' p2' st1 hinv1
      rcases hshape with ⟨s1, rfl⟩ | ⟨s1, s2, hpp, hc2, rfl⟩
      · have hser1 : serial' = serial + 1 := by simpa using hser
        rw [serialsOf, List.filterMap_append, ← serialsOf, ← serialsOf, ih, hser1]
        rw [show serialsOf [mkAssign s1 name desk Side.side1 serial] = [serial] from rfl,
          List.length_append,
          show ([mkAssign s1 name desk Side.side1 serial]).length = 1 from rfl]
        generalize (fillDesks cap name fuel (desk + 1) (serial + 1) p1' p2' st1).1.length = n
        rw [show 1 + n = n + 1 from Nat.add_comm 1 n, List.range'_succ]
        rfl
      · have hser2 : serial' = serial + 2 := by simpa [Nat.add_assoc] using hser
        rw [serialsOf, List.filterMap_append, ← serialsOf, ← serialsOf, ih, hser2]
        rw [show serialsOf [mkAssign s1 name desk Side.side1 serial,
              mkAssign s2 name desk Side.side2 (serial + 1)] =
            [serial, serial + 1] from rfl,
          List.length_append,
          show ([mkAssign s1 name desk Side.side1 serial,
            mkAssign s2 name desk Side.side2 (serial + 1)]).length = 2 from rfl]
        generalize (fillDesks cap name fuel (desk + 1) (serial + 2) p1' p2' st1).1.length = n
        rw [show 2 + n = n + 1 + 1 from by omega, List.range'_succ, List.range'_succ]
        rfl

theorem fillDesks_pairs (cap : Nat) (name : String) :
    ∀ (fuel desk serial : Nat) (p1 p2 : Option String) (st : AllocState),
      QInv st →
      (∀ b ∈ (fillDesks cap name fuel desk serial p1 p2 st).1,
        ∀ sb, b.assignment = some sb → sb.side = Side.side2 →
        ∃ a ∈ (fillDesks cap name fuel desk serial p1 p2 st).1,
          ∃ sa, a.assignment = some sa ∧ sa.side = Side.side1 ∧
            sa.deskNumber = sb.deskNumber ∧ sa.roomName = sb.roomName ∧
            sa.serialNumber < sb.serialNumber ∧ a.paper ≠ b.paper) ∧
      (∀ a ∈ (fillDesks cap name fuel desk serial p1 p2 st).1,
        ∀ b ∈ (fillDesks cap name fuel desk serial p1 p2 st).1,
        ∀ sa sb, a.assignment = some sa → b.assignment = some sb →
          sa.deskNumber = sb.deskNumber → sa.side = Side.side1 →
          sb.side = Side.side2 →
          a.paper ≠ b.paper ∧ sa.serialNumber < sb.serialNumber)
  | 0, desk, serial, p1, p2, st, hinv => by
    rw [fillDesks]
    exact ⟨fun b hb => absurd hb (List.not_mem_nil b),
      fun a ha => absurd ha (List.not_mem_nil a)⟩
  | fuel + 1, desk, serial, p1, p2, st, hinv => by
    rw [fillDesks]
    rcases hds : deskStep cap name desk serial p1 p2 st with ⟨o, st1⟩
    rcases o with _ | ⟨as0, serial', p1', p2'⟩
    · simp only
      exact ⟨fun b hb => absurd hb (List.not_mem_nil b),
        fun a ha => absurd ha (List.not_mem_nil a)⟩
    · simp only
      obtain ⟨ho1, hsc, hser, hsub, _, hshape⟩ := deskStep_some hinv hds
      have hinv1 : QInv st1 := qInv_of_sub hinv ho1 hsub
      have ih := fillDesks_pairs cap name fuel (desk + 1) serial' p1' p2' st1 hinv1
      have hrest := fillDesks_assigns cap name fuel (desk + 1) serial' p1' p2' st1 hinv1
      constructor
      · -- every Side 2 occupant has a Side 1 partner on the same desk
        intro b hb sb hsb h2
        rcases List.mem_append.1 hb with hb0 | hbr
        · rcases hshape with ⟨s1, rfl⟩ | ⟨s1, s2, hpp, hc2, rfl⟩
          · rcases List.mem_singleton.1 hb0 with rfl
            simp only [mkAssign] at hsb
            injection hsb with hsb
            subst hsb
            exact Side.noConfusion h2
          · rcases List.mem_cons.1 hb0 with rfl | hb0
            · simp only [mkAssign] at hsb
              injection hsb with hsb
              subst hsb
              exact Side.noConfusion h2
            rcases List.mem_singleton.1 hb0 with rfl
            simp only [mkAssign] at hsb
            injection hsb with hsb
            subst hsb
            refine ⟨mkAssign s1 name desk Side.side1 serial,
              List.mem_append_left _ (List.mem_cons_self _ _),
              ⟨name, desk, Side.side1, serial⟩, rfl, rfl, rfl, rfl,
              Nat.lt_succ_self serial, ?_⟩
            simpa [mkAssign] using hpp
        · obtain ⟨a, haF, sa, h1, h2', h3, h4, h5, h6⟩ := ih.1 b hbr sb hsb h2
          exact ⟨a, List.mem_append_right _ haF, sa, h1, h2', h3, h4, h5, h6⟩
      · -- Side 1 and Side 2 of one desk never share a paper
        intro a ha b hb sa sb hsa hsb hdesk hside1 hside2
        rcases List.mem_append.1 ha with ha0 | har
        · rcases List.mem_append.1 hb with hb0 | hbr
          · -- both at the current desk
            rcases hshape with ⟨s1, rfl⟩ | ⟨s1, s2, hpp, hc2, rfl⟩
            · rcases List.mem_singleton.1 hb0 with rfl
              simp only [mkAssign] at hsb
              injection hsb with hsb
              subst hsb
              exact Side.noConfusion hside2
            · rcases List.mem_cons.1 hb0 with rfl | hb0
              · simp only [mkAssign] at hsb
                injection hsb with hsb
                subst hsb
                exact Side.noConfusion hside2
              rcases List.mem_singleton.1 hb0 with rfl
              rcases List.mem_cons.1 ha0 with rfl | ha0
              · simp only [mkAssign] at hsa hsb
                injection hsa with hsa
                injection hsb with hsb
                subst hsa hsb
                exact ⟨by simpa [mkAssign] using hpp, Nat.lt_succ_self serial⟩
              rcases List.mem_singleton.1 ha0 with rfl
              simp only [mkAssign] at hsa
              injection hsa with hsa
              subst hsa
              exact Side.noConfusion hside1
          · -- `a` at the current desk, `b` further on: desks differ
            obtain ⟨sb', hb1, _, hb3, _, _⟩ := hrest b hbr
            rw [hsb] at hb1
            injection hb1 with hb1
            subst hb1
            have hdeska : sa.deskNumber = desk := by
              rcases hshape with ⟨s1, rfl⟩ | ⟨s1, s2, hpp, hc2, rfl⟩
              · rcases List.mem_singleton.1 ha0 with rfl
                simp only [mkAssign] at hsa
                injection hsa with hsa
                subst hsa
                rfl
              · rcases List.mem_cons.1 ha0 with rfl | ha0
                · simp only [mkAssign] at hsa
                  injection hsa with hsa
                  subst hsa
                  rfl
                rcases List.mem_singleton.1 ha0 with rfl
                simp only [mkAssign] at hsa
                injection hsa with hsa
                subst hsa
                rfl
            omega
        · rcases List.mem_append.1 hb with hb0 | hbr
          · -- `b` at the current desk, `a` further on: desks differ
            obtain ⟨sa', ha1, _, ha3, _, _⟩ := hrest a har
            rw [hsa] at ha1
            injection ha1 with ha1
            subst ha1
            have hdeskb : sb.deskNumber = desk := by
              rcases hshape with ⟨s1, rfl⟩ | ⟨s1, s2, hpp, hc2, rfl⟩
              · rcases List.mem_singleton.1 hb0 with rfl
                simp only [mkAssign] at hsb
                injection hsb with hsb
                subst hsb
                rfl
              · rcases List.mem_cons.1 hb0 with rfl | hb0
                · simp only [mkAssign] at hsb
                  injection hsb with hsb
                  subst hsb
                  rfl
                rcases List.mem_singleton.1 hb0 with rfl
                simp only [mkAssign] at hsb
                injection hsb with hsb
                subst hsb
                rfl
            omega
          · exact ih.2 a har b hbr sa sb hsa hsb hdesk hside1 hside2

/-! ## Lemmas: the room loop -/

theorem roomFilter_eq_true {name : String} {a : StudentAssignment} :
    roomFilter name a = true ↔ ∃ sa, a.assignment = some sa ∧ sa.roomName = name := by
  rcases ha : a.assignment with _ | sa
  · simp [roomFilter, ha]
  · simp [roomFilter, ha]

theorem allocRooms_state :
    ∀ (rooms : List Classroom) (st : AllocState), QInv st →
      (allocRooms rooms st).2.order = st.order ∧ QInv (allocRooms rooms st).2 ∧
      ∃ popped : List Student,
        (allQueues st).Perm (popped ++ allQueues (allocRooms rooms st).2) ∧
        (allocRooms rooms st).1.map keyA = popped.map keyS
  | [], st, hinv => by
    rw [allocRooms]
    exact ⟨rfl, hinv, [], List.Perm.refl _, rfl⟩
  | room :: rest, st, hinv => by
    rw [allocRooms]
    simp only [processRoom]
    obtain ⟨ho1, hinv1, pop0, hperm0, hmap0⟩ :=
      fillDesks_state room.totalCapacity room.roomName (perColOf room).sum
        1 1 none none st hinv
    obtain ⟨ho2, hinv2, pop1, hperm1, hmap1⟩ :=
      allocRooms_state rest
        (fillDesks room.totalCapacity room.roomName (perColOf room).sum
          1 1 none none st).2 hinv1
    refine ⟨ho2.trans ho1, hinv2, pop0 ++ pop1, ?_, ?_⟩
    · refine hperm0.trans ?_
      rw [List.append_assoc]
      exact hperm1.append_left pop0
    · simp only [List.map_append, hmap0, hmap1]

theorem allocRooms_assigns :
    ∀ (rooms : List Classroom) (st : AllocState), QInv st →
      ∀ a ∈ (allocRooms rooms st).1, ∃ sa, a.assignment = some sa ∧
        sa.roomName ∈ rooms.map (·.roomName)
  | [], st, hinv => by
    rw [allocRooms]
    exact fun a ha => absurd ha (List.not_mem_nil a)
  | room :: rest, st, hinv => by
    rw [allocRooms]
    simp only [processRoom]
    obtain ⟨ho1, hinv1, _⟩ :=
      fillDesks_state room.totalCapacity room.roomName (perColOf room).sum
        1 1 none none st hinv
    intro a ha
    rcases List.mem_append.1 ha with ha0 | har
    · obtain ⟨sa, h1, h2, _⟩ := fillDesks_assigns room.totalCapacity room.roomName
        (perColOf room).sum 1 1 none none st hinv a ha0
      exact ⟨sa, h1, by rw [h2]; exact List.mem_cons_self _ _⟩
    · obtain ⟨sa, h1, h2⟩ := allocRooms_assigns rest _ hinv1 a har
      exact ⟨sa, h1, List.mem_cons_of_mem _ h2⟩

theorem allocRooms_pairs :
    ∀ (rooms : List Classroom) (st : AllocState), QInv st →
      ∀ b ∈ (allocRooms rooms st).1, ∀ sb, b.assignment = some sb →
        sb.side = Side.side2 →
        ∃ a ∈ (allocRooms rooms st).1, ∃ sa, a.assignment = some sa ∧
          sa.side = Side.side1 ∧ sa.deskNumber = sb.deskNumber ∧
          sa.roomName = sb.roomName ∧ sa.serialNumber < sb.serialNumber ∧
          a.paper ≠ b.paper
  | [], st, hinv => by
    rw [allocRooms]
    exact fun b hb => absurd hb (List.not_mem_nil b)
  | room :: rest, st, hinv => by
    rw [allocRooms]
    simp only [processRoom]
    obtain ⟨ho1, hinv1, _⟩ :=
      fillDesks_state room.totalCapacity room.roomName (perColOf room).sum
        1 1 none none st hinv
    intro b hb sb hsb h2
    rcases List.mem_append.1 hb with hb0 | hbr
    · obtain ⟨a, haF, sa, h1, h2', h3, h4, h5, h6⟩ :=
        (fillDesks_pairs room.totalCapacity room.roomName (perColOf room).sum
          1 1 none none st hinv).1 b hb0 sb hsb h2
      exact ⟨a, List.mem_append_left _ haF, sa, h1, h2', h3, h4, h5, h6⟩
    · obtain ⟨a, haF, sa, h1, h2', h3, h4, h5, h6⟩ :=
        allocRooms_pairs rest _ hinv1 b hbr sb hsb h2
      exact ⟨a, List.mem_append_right _ haF, sa, h1, h2', h3, h4, h5, h6⟩

theorem allocRooms_filter :
    ∀ (rooms : List Classroom) (st : AllocState), QInv st →
      (rooms.map (·.roomName)).Nodup →
      ∀ room ∈ rooms, ∃ st0 : AllocState, QInv st0 ∧
        (allocRooms rooms st).1.filter (roomFilter room.roomName) =
          (processRoom st0 room).1
  | [], st, hinv, hnd => by
    exact fun room hr => absurd hr (List.not_mem_nil room)
  | room' :: rest, st, hinv, hnd => by
    intro room hr
    rw [List.map_cons, List.nodup_cons] at hnd
    rw [allocRooms]
    simp only
    obtain ⟨ho1, hinv1, _⟩ :=
      fillDesks_state room'.totalCapacity room'.roomName (perColOf room').sum
        1 1 none none st hinv
    rw [List.filter_append]
    rcases List.mem_cons.1 hr with rfl | hr
    · -- the block of this very room
      refine ⟨st, hinv, ?_⟩
      have hblock : (processRoom st room).1.filter (roomFilter room.roomName) =
          (processRoom st room).1 := by
        rw [List.filter_eq_self]
        intro a ha
        obtain ⟨sa, h1, h2, _⟩ := fillDesks_assigns room.totalCapacity
          room.roomName (perColOf room).sum 1 1 none none st hinv a ha
        exact roomFilter_eq_true.2 ⟨sa, h1, h2⟩
      have hrest : ((allocRooms rest (processRoom st room).2).1.filter
          (roomFilter room.roomName)) = [] := by
        rw [List.filter_eq_nil_iff]
        intro a ha hfa
        obtain ⟨sa, h1, h2⟩ := allocRooms_assigns rest _ hinv1 a ha
        obtain ⟨sa', h1', h2'⟩ := roomFilter_eq_true.1 hfa
        rw [h1] at h1'
        injection h1' with h1'
        subst h1'
        exact hnd.1 (h2' ▸ h2)
      rw [hblock, hrest, List.append_nil]
    · -- a later room: this block filters away
      have hne : room.roomName ≠ room'.roomName := by
        intro he
        exact hnd.1 (he ▸ List.mem_map_of_mem (·.roomName) hr)
      obtain ⟨st0, hinv0, hfil⟩ := allocRooms_filter rest _ hinv1 hnd.2 room hr
      refine ⟨st0, hinv0, ?_⟩
      have hblock : ((processRoom st room').1.filter
          (roomFilter room.roomName)) = [] := by
        rw [List.filter_eq_nil_iff]
        intro a ha hfa
        obtain ⟨sa, h1, h2, _⟩ := fillDesks_assigns room'.totalCapacity
          room'.roomName (perColOf room').sum 1 1 none none st hinv a ha
        obtain ⟨sa', h1', h2'⟩ := roomFilter_eq_true.1 hfa
        rw [h1] at h1'
        injection h1' with h1'
        subst h1'
        exact hne (h2'.symm.trans h2)
      rw [hblock, List.nil_append]
      exact hfil

/-! ## Lemmas: the allocator seen as a whole -/

theorem intelligentSeating_perm (classrooms : List Classroom)
    (students : List Student) :
    ∃ popped : List Student,
      students.Perm
        (popped ++ (intelligentSeating classrooms students).unassignedStudents) ∧
      (intelligentSeating classrooms students).assignments.map keyA =
        popped.map keyS := by
  obtain ⟨_, _, popped, hperm, hmap⟩ :=
    allocRooms_state (sortRooms classrooms) (initSt students) (qInv_initSt students)
  exact ⟨popped, (allQueues_initSt_perm students).symm.trans hperm, hmap⟩

theorem assignment_source {classrooms : List Classroom} {students : List Student}
    {a : StudentAssignment}
    (ha : a ∈ (intelligentSeating classrooms students).assignments) :
    ∃ s ∈ students, s.rollNumber = a.rollNumber ∧ s.paper = a.paper := by
  obtain ⟨popped, hperm, hmap⟩ := intelligentSeating_perm classrooms students
  have h1 : keyA a ∈ (intelligentSeating classrooms students).assignments.map keyA :=
    List.mem_map_of_mem keyA ha
  rw [hmap] at h1
  obtain ⟨s, hs, hkey⟩ := List.mem_map.1 h1
  refine ⟨s, hperm.mem_iff.2 (List.mem_append_left _ hs), ?_, ?_⟩
  · exact congrArg Prod.fst hkey
  · exact congrArg Prod.snd hkey

theorem intelligentSeating_assigns {classrooms : List Classroom}
    {students : List Student} {a : StudentAssignment}
    (ha : a ∈ (intelligentSeating classrooms students).assignments) :
    ∃ sa, a.assignment = some sa ∧ sa.roomName ∈ classrooms.map (·.roomName) := by
  obtain ⟨sa, h1, h2⟩ := allocRooms_assigns (sortRooms classrooms)
    (initSt students) (qInv_initSt students) a ha
  exact ⟨sa, h1, ((stableSort_perm roomLe classrooms).map _).mem_iff.1 h2⟩

theorem intelligentSeating_filter {classrooms : List Classroom}
    {students : List Student}
    (hnm : (classrooms.map (·.roomName)).Nodup) (c : Classroom)
    (hc : c ∈ classrooms) :
    ∃ st0, QInv st0 ∧
      (intelligentSeating classrooms students).assignments.filter
        (roomFilter c.roomName) = (processRoom st0 c).1 := by
  have hperm := stableSort_perm roomLe classrooms
  have hnd2 : ((sortRooms classrooms).map (·.roomName)).Nodup :=
    ((hperm.map (·.roomName)).nodup_iff).2 hnm
  exact allocRooms_filter (sortRooms classrooms) (initSt students)
    (qInv_initSt students) hnd2 c (hperm.mem_iff.2 hc)

/-! ## The claims about the allocator -/

/-- C3: in every allocation produced by the allocator, the serial numbers
assigned within any one room (of a duplicate-free room list) are exactly the
contiguous range `1..k` where `k` is the number of seats filled in that room,
with no gaps and no duplicates, and no serial number exceeds the room's
`totalCapacity`. -/
theorem c3_serials_contiguous (classrooms : List Classroom)
    (students : List Student)
    (hnm : (classrooms.map (·.roomName)).Nodup) (c : Classroom)
    (hc : c ∈ classrooms) :
    serialsOf ((intelligentSeating classrooms students).assignments.filter
        (roomFilter c.roomName)) =
      List.range' 1 ((intelligentSeating classrooms students).assignments.filter
        (roomFilter c.roomName)).length ∧
    ∀ a ∈ (intelligentSeating classrooms students).assignments.filter
        (roomFilter c.roomName),
      ∀ sa, a.assignment = some sa → sa.serialNumber ≤ c.totalCapacity := by
  obtain ⟨st0, hinv0, hfil⟩ := intelligentSeating_filter hnm c hc
  rw [hfil]
  constructor
  · exact fillDesks_serials c.totalCapacity c.roomName (perColOf c).sum
      1 1 none none st0 hinv0
  · intro a ha sa hsa
    obtain ⟨sa', h1, _, _, _, h5⟩ := fillDesks_assigns c.totalCapacity c.roomName
      (perColOf c).sum 1 1 none none st0 hinv0 a ha
    rw [hsa] at h1
    injection h1 with h1
    subst h1
    exact h5

theorem c3_witness :
    serialsOf ((intelligentSeating [roomTwoSeats] [stuP1, stuQ1]).assignments.filter
        (roomFilter roomTwoSeats.roomName)) = [1, 2] ∧
    ∀ a ∈ (intelligentSeating [roomTwoSeats] [stuP1, stuQ1]).assignments.filter
        (roomFilter roomTwoSeats.roomName),
      ∀ sa, a.assignment = some sa → sa.serialNumber ≤ roomTwoSeats.totalCapacity := by
  constructor
  · have h := (c3_serials_contiguous [roomTwoSeats] [stuP1, stuQ1] (by decide)
      roomTwoSeats (by decide)).1
    rw [h]
    decide
  · exact (c3_serials_contiguous [roomTwoSeats] [stuP1, stuQ1] (by decide)
      roomTwoSeats (by decide)).2

/-- C1: the allocator never places two occupants of equal ConflictClass
(paper plus semester number) on one desk: whenever one student sits on Side 1
and another on Side 2 of the same desk of the same room (room names and roll
numbers being duplicate-free), the corresponding input students have
different ConflictClasses. -/
theorem c1_no_equal_conflict_class_on_desk (classrooms : List Classroom)
    (students : List Student)
    (hnm : (classrooms.map (·.roomName)).Nodup)
    (hrn : (students.map (·.rollNumber)).Nodup)
    (a b : StudentAssignment)
    (ha : a ∈ (intelligentSeating classrooms students).assignments)
    (hb : b ∈ (intelligentSeating classrooms students).assignments)
    (sa sb : SeatingAssignment)
    (hsa : a.assignment = some sa) (hsb : b.assignment = some sb)
    (hroom : sa.roomName = sb.roomName) (hdesk : sa.deskNumber = sb.deskNumber)
    (h1 : sa.side = Side.side1) (h2 : sb.side = Side.side2)
    (x y : Student) (hx : x ∈ students) (hy : y ∈ students)
    (hxa : x.rollNumber = a.rollNumber) (hyb : y.rollNumber = b.rollNumber) :
    conflictClass x ≠ conflictClass y := by
  -- locate the single room carrying both seats
  obtain ⟨sa', hsa', hmem⟩ := intelligentSeating_assigns ha
  rw [hsa] at hsa'
  injection hsa' with hsa'
  subst hsa'
  obtain ⟨nm, hcmem, hnm'⟩ := List.mem_map.1 hmem
  obtain ⟨st0, hinv0, hfil⟩ := intelligentSeating_filter hnm nm hcmem
  have hafil : a ∈ (intelligentSeating classrooms students).assignments.filter
      (roomFilter nm.roomName) :=
    List.mem_filter.2 ⟨ha, roomFilter_eq_true.2 ⟨sa, hsa, hnm'.symm⟩⟩
  have hbfil : b ∈ (intelligentSeating classrooms students).assignments.filter
      (roomFilter nm.roomName) :=
    List.mem_filter.2 ⟨hb, roomFilter_eq_true.2 ⟨sb, hsb, hroom ▸ hnm'.symm⟩⟩
  rw [hfil] at hafil hbfil
  have hpp := ((fillDesks_pairs nm.totalCapacity nm.roomName (perColOf nm).sum
    1 1 none none st0 hinv0).2 a hafil b hbfil sa sb hsa hsb hdesk h1 h2).1
  -- transport the paper difference to the input students
  obtain ⟨xs, hxs, hxr, hxp⟩ := assignment_source ha
  obtain ⟨ys, hys, hyr, hyp⟩ := assignment_source hb
  have hxx : x = xs :=
    List.inj_on_of_nodup_map hrn hx hxs (by rw [hxa, hxr])
  have hyy : y = ys :=
    List.inj_on_of_nodup_map hrn hy hys (by rw [hyb, hyr])
  intro he
  apply hpp
  have hx1 : x.paper = a.paper := by rw [hxx, hxp]
  have hy1 : y.paper = b.paper := by rw [hyy, hyp]
  rw [← hx1, ← hy1]
  exact congrArg Prod.fst he

theorem c1_witness :
    conflictClass stuP1 ≠ conflictClass stuQ1 :=
  c1_no_equal_conflict_class_on_desk [roomTwoSeats] [stuP1, stuQ1]
    (by decide) (by decide)
    ⟨"CT-3-1", "P", some ⟨"R1", 1, Side.side1, 1⟩⟩
    ⟨"CT-3-9", "Q", some ⟨"R1", 1, Side.side2, 2⟩⟩
    (by decide) (by decide)
    ⟨"R1", 1, Side.side1, 1⟩ ⟨"R1", 1, Side.side2, 2⟩
    rfl rfl rfl rfl rfl rfl
    stuP1 stuQ1 (by decide) (by decide) rfl rfl

/-- C9 (implicit): Side 1 of a desk is always filled before Side 2 — whenever
some student is assigned to Side 2 of a desk, another student is assigned to
Side 1 of the same desk of the same room, with a strictly smaller serial
number. -/
theorem c9_side1_before_side2 (classrooms : List Classroom)
    (students : List Student) (b : StudentAssignment)
    (hb : b ∈ (intelligentSeating classrooms students).assignments)
    (sb : SeatingAssignment) (hsb : b.assignment = some sb)
    (h2 : sb.side = Side.side2) :
    ∃ a ∈ (intelligentSeating classrooms students).assignments,
      ∃ sa, a.assignment = some sa ∧ sa.side = Side.side1 ∧
        sa.roomName = sb.roomName ∧ sa.deskNumber = sb.deskNumber ∧
        sa.serialNumber < sb.serialNumber := by
  obtain ⟨a, haF, sa, h1, h2', h3, h4, h5, _⟩ :=
    allocRooms_pairs (sortRooms classrooms) (initSt students)
      (qInv_initSt students) b hb sb hsb h2
  exact ⟨a, haF, sa, h1, h2', h4, h3, h5⟩

theorem c9_witness :
    ∃ a ∈ (intelligentSeating [roomTwoSeats] [stuP1, stuQ1]).assignments,
      ∃ sa, a.assignment = some sa ∧ sa.side = Side.side1 ∧
        sa.roomName = "R1" ∧ sa.deskNumber = 1 ∧ sa.serialNumber < 2 :=
  c9_side1_before_side2 [roomTwoSeats] [stuP1, stuQ1]
    ⟨"CT-3-9", "Q", some ⟨"R1", 1, Side.side2, 2⟩⟩ (by decide)
    ⟨"R1", 1, Side.side2, 2⟩ rfl rfl

/-- C4: every input student (roll numbers being duplicate-free) appears in
exactly one of the allocator's two output sets — exactly once among the
assignments or exactly once among the unassigned students, never in both and
never in neither. -/
theorem c4_partition (classrooms : List Classroom) (students : List Student)
    (hrn : (students.map (·.rollNumber)).Nodup) (s : Student)
    (hs : s ∈ students) :
    ((intelligentSeating classrooms students).assignments.countP
        fun a => a.rollNumber == s.rollNumber) +
      ((intelligentSeating classrooms students).unassignedStudents.countP
        fun u => u.rollNumber == s.rollNumber) = 1 := by
  obtain ⟨popped, hperm, hmap⟩ := intelligentSeating_perm classrooms students
  have hA : ((intelligentSeating classrooms students).assignments.countP
      fun a => a.rollNumber == s.rollNumber) =
      popped.countP (fun u => u.rollNumber == s.rollNumber) := by
    calc ((intelligentSeating classrooms students).assignments.countP
          fun a => a.rollNumber == s.rollNumber)
        = ((intelligentSeating classrooms students).assignments.map keyA).countP
            (fun k : String × String => k.1 == s.rollNumber) :=
          (List.countP_map (fun k : String × String => k.1 == s.rollNumber)
            keyA _).symm
      _ = (popped.map keyS).countP
            (fun k : String × String => k.1 == s.rollNumber) := by rw [hmap]
      _ = popped.countP (fun u => u.rollNumber == s.rollNumber) :=
          List.countP_map (fun k : String × String => k.1 == s.rollNumber) keyS _
  have hone : students.countP (fun u => u.rollNumber == s.rollNumber) = 1 := by
    calc students.countP (fun u => u.rollNumber == s.rollNumber)
        = (students.map fun u : Student => u.rollNumber).countP
            (fun x : String => x == s.rollNumber) :=
          (List.countP_map (fun x : String => x == s.rollNumber)
            (fun u : Student => u.rollNumber) _).symm
      _ = List.count s.rollNumber (students.map fun u : Student => u.rollNumber) :=
          rfl
      _ = 1 := List.count_eq_one_of_mem hrn (List.mem_map_of_mem _ hs)
  rw [hA, ← List.countP_append,
    ← hperm.countP_eq (fun u => u.rollNumber == s.rollNumber), hone]

theorem c4_witness :
    ((intelligentSeating [roomOneSeat] [stuP1, stuP2]).assignments.countP
        fun a => a.rollNumber == stuP1.rollNumber) +
      ((intelligentSeating [roomOneSeat] [stuP1, stuP2]).unassignedStudents.countP
        fun u => u.rollNumber == stuP1.rollNumber) = 1 :=
  c4_partition [roomOneSeat] [stuP1, stuP2] (by decide) stuP1 (by decide)

/-! ## The claims about bucketing (C6) and the capacity guard (C2) -/

/-- C6 counterexample: two students sharing paper "P" but with different
semester numbers — hence different ConflictClasses — land in one and the same
bucket (the one keyed by the bare paper), refuting the claim that they occupy
different buckets. -/
theorem c6_counterexample :
    (initSt [stuP1, stuP5]).q "P" = [stuP1, stuP5] ∧
    conflictClass stuP1 ≠ conflictClass stuP5 := by decide

/-- C6 (amended): the allocator buckets the waiting students by paper alone —
each bucket holds exactly the input students of its paper (so two students
sharing a paper but differing in semester share one bucket) — and sorts each
bucket ascending by the numeric suffix of the roll number, a roll number
whose last part does not parse as a number sorting as 0. -/
theorem c6_amended_buckets (students : List Student) :
    (∀ p, ((initSt students).q p).Perm
      (students.filter fun s => s.paper == p)) ∧
    (∀ x ∈ students, x ∈ (initSt students).q x.paper) ∧
    (∀ p, ((initSt students).q p).Pairwise fun a b =>
      extractRollNumberNumeric a.rollNumber ≤ extractRollNumberNumeric b.rollNumber) ∧
    (∀ roll, parseIntJS ((splitDash roll).getLastD "") = none →
      extractRollNumberNumeric roll = 0) := by
  have htrans : ∀ a b c : Student, rollLe a b = true → rollLe b c = true →
      rollLe a c = true := by
    intro a b c hab hbc
    simp only [rollLe, decide_eq_true_eq] at hab hbc ⊢
    exact le_trans hab hbc
  have htot : ∀ a b : Student, rollLe a b = true ∨ rollLe b a = true := by
    intro a b
    simp only [rollLe, decide_eq_true_eq]
    exact le_total _ _
  refine ⟨?_, ?_, ?_, ?_⟩
  · intro p
    rw [initSt_q]
    exact stableSort_perm _ _
  · intro x hx
    rw [initSt_q, mem_stableSort, List.mem_filter]
    exact ⟨hx, by simp⟩
  · intro p
    rw [initSt_q]
    refine (stableSort_pairwise htrans htot _).imp ?_
    intro a b hab
    simpa only [rollLe, decide_eq_true_eq] using hab
  · intro roll h
    simp only [extractRollNumberNumeric]
    rw [h]

theorem c6_witness :
    ((initSt [stuP1, stuP5]).q "P").Perm
      ([stuP1, stuP5].filter fun s => s.paper == "P") ∧
    stuP1 ∈ (initSt [stuP1, stuP5]).q "P" ∧
    extractRollNumberNumeric "CT-AB" = 0 :=
  ⟨(c6_amended_buckets [stuP1, stuP5]).1 "P",
    (c6_amended_buckets [stuP1, stuP5]).2.1 stuP1 (by decide),
    (c6_amended_buckets [stuP1, stuP5]).2.2.2 "CT-AB" (by decide)⟩

/-- C2 counterexample: with one 1-seat classroom and two students, the total
capacity (1) is below the student count (2), yet `intelligentSeating` does
not fast-fail: its assignment list is non-empty and its unassigned list is
not the full input list. -/
theorem c2_counterexample :
    (([roomOneSeat] : List Classroom).map (·.totalCapacity)).sum <
      ([stuP1, stuP2] : List Student).length ∧
    (intelligentSeating [roomOneSeat] [stuP1, stuP2]).assignments ≠ [] ∧
    (intelligentSeating [roomOneSeat] [stuP1, stuP2]).unassignedStudents ≠
      [stuP1, stuP2] := by decide

/-- C2 (amended): the capacity fast-fail lives in `algorithmicSeating` (and
only there): whenever the total classroom capacity is strictly below the
student count, it returns no assignments and the full input student list in
input order, whatever the random stream; `intelligentSeating` has no such
guard and instead fills seats (see the counterexample). -/
theorem c2_amended_fast_fail (rand : Nat → Nat)
    (classrooms : List AlgoClassroom) (students : List AlgoStudent)
    (h : (classrooms.map (·.totalCapacity)).sum < students.length) :
    algorithmicSeating rand classrooms students =
      { assignments := [], unassignedStudents := students } := by
  rw [algorithmicSeating]
  simp [h]

theorem c2_witness :
    algorithmicSeating (fun _ => 0) [⟨"A", 1⟩]
        [⟨"CT-3-1", "P"⟩, ⟨"CT-3-2", "P"⟩] =
      { assignments := []
        unassignedStudents := [⟨"CT-3-1", "P"⟩, ⟨"CT-3-2", "P"⟩] } :=
  c2_amended_fast_fail (fun _ => 0) [⟨"A", 1⟩]
    [⟨"CT-3-1", "P"⟩, ⟨"CT-3-2", "P"⟩] (by decide)

/-! ## The claims about desk geometry (C5, C8) -/

/-- C5: the allocator and the report generator compute the same desk
geometry, that geometry is the one the spec describes (explicit
`desksPerColumn` of matching length verbatim, otherwise `ceil(capacity/2)`
benches spread evenly with the first `remainder` columns taking one extra),
and capacity 50 with 4 columns and no explicit distribution yields
`[7, 6, 6, 6]`. -/
theorem c5_desk_geometry (c : Classroom) (h : 1 ≤ c.numberOfColumns) :
    perColOf c = benchesPerColumnOf c ∧
    benchesPerColumnOf c =
      deskLayoutSpec c.totalCapacity c.numberOfColumns c.desksPerColumn ∧
    benchesPerColumnOf ⟨"X", 50, 4, none⟩ = [7, 6, 6, 6] := by
  have hmax : max 1 c.numberOfColumns = c.numberOfColumns := Nat.max_eq_right h
  refine ⟨?_, ?_, by decide⟩
  · rfl
  · rcases hd : c.desksPerColumn with _ | dpc <;>
      simp [benchesPerColumnOf, deskLayoutSpec, hd, hmax]

theorem c5_witness :
    perColOf ⟨"X", 50, 4, none⟩ = benchesPerColumnOf ⟨"X", 50, 4, none⟩ ∧
    benchesPerColumnOf ⟨"X", 50, 4, none⟩ = deskLayoutSpec 50 4 none ∧
    benchesPerColumnOf ⟨"X", 50, 4, none⟩ = [7, 6, 6, 6] :=
  c5_desk_geometry ⟨"X", 50, 4, none⟩ (by decide)

/-- C8 counterexample: for a classroom with 0 columns and 0 capacity both
desk-layout computations silently produce a geometry (`[0]`) instead of
failing with an InvalidConfiguration error — both functions are total and
have no error outcome at all. -/
theorem c8_counterexample :
    perColOf ⟨"R", 0, 0, none⟩ = [0] ∧
    benchesPerColumnOf ⟨"R", 0, 0, none⟩ = [0] := by decide

/-- C8 (amended): a column count below 1 is silently clamped to 1, and a
capacity below 1 (with no explicit desksPerColumn) silently yields an
all-zero bench distribution; no error is raised in either case, in both the
allocator's and the report generator's geometry. -/
theorem c8_amended_clamp (c : Classroom) :
    (c.numberOfColumns < 1 →
      perColOf c = perColOf { c with numberOfColumns := 1 } ∧
      benchesPerColumnOf c = benchesPerColumnOf { c with numberOfColumns := 1 }) ∧
    (c.totalCapacity < 1 → c.desksPerColumn = none →
      perColOf c = List.replicate (max 1 c.numberOfColumns) 0 ∧
      benchesPerColumnOf c = List.replicate (max 1 c.numberOfColumns) 0) := by
  constructor
  · intro hcols
    have h0 : c.numberOfColumns = 0 := Nat.lt_one_iff.1 hcols
    rcases hd : c.desksPerColumn with _ | dpc <;>
      simp [perColOf, benchesPerColumnOf, hd, h0]
  · intro hcap hd
    have h0 : c.totalCapacity = 0 := Nat.lt_one_iff.1 hcap
    have hz : ∀ n : Nat, ((List.range n).map fun _ => (0 : Nat)) =
        List.replicate n 0 := by
      intro n
      rw [List.map_const', List.length_range]
    constructor <;>
      · simp only [perColOf, benchesPerColumnOf, hd, h0]
        rw [← hz]
        simp

theorem c8_witness :
    perColOf ⟨"R", 0, 0, none⟩ = perColOf ⟨"R", 0, 1, none⟩ ∧
    perColOf ⟨"R", 0, 0, none⟩ = List.replicate 1 0 :=
  ⟨((c8_amended_clamp ⟨"R", 0, 0, none⟩).1 (by decide)).1,
    ((c8_amended_clamp ⟨"R", 0, 0, none⟩).2 (by decide) rfl).1⟩

/-! ## Lemmas: the report grid -/

theorem columnsAux_length (dm : Nat → Option PrintAssignment × Option PrintAssignment) :
    ∀ (bpc : List Nat) (off : Nat), (columnsAux dm bpc off).length = 2 * bpc.length
  | [], _ => rfl
  | rows :: t, off => by
    rw [columnsAux]
    simp only [List.length_cons, columnsAux_length dm t (off + rows)]
    omega

theorem columnsAux_shapes (dm : Nat → Option PrintAssignment × Option PrintAssignment) :
    ∀ (bpc : List Nat) (off : Nat), ∀ sub ∈ columnsAux dm bpc off,
      ∃ rows, rows ∈ bpc ∧ sub.length = rows
  | [], _ => by
    intro sub h
    exact absurd h (List.not_mem_nil sub)
  | rows :: t, off => by
    intro sub h
    rw [columnsAux] at h
    rcases List.mem_cons.1 h with rfl | h
    · exact ⟨rows, List.mem_cons_self _ _, by simp⟩
    rcases List.mem_cons.1 h with rfl | h
    · exact ⟨rows, List.mem_cons_self _ _, by simp⟩
    · obtain ⟨r, hr, hl⟩ := columnsAux_shapes dm t (off + rows) sub h
      exact ⟨r, List.mem_cons_of_mem _ hr, hl⟩

theorem le_foldl_max : ∀ (l : List Nat) (a x : Nat), x ∈ l ∨ x ≤ a →
    x ≤ l.foldl max a
  | [], _, x, h => by
    rcases h with h | h
    · exact absurd h (List.not_mem_nil x)
    · exact h
  | b :: t, a, x, h => by
    rw [List.foldl_cons]
    apply le_foldl_max t (max a b) x
    rcases h with h | h
    · rcases List.mem_cons.1 h with rfl | h
      · exact Or.inr (le_max_right a x)
      · exact Or.inl h
    · exact Or.inr (le_trans h (le_max_left a b))

theorem columnsAux_get (dm : Nat → Option PrintAssignment × Option PrintAssignment) :
    ∀ (bpc : List Nat) (i off : Nat), i < bpc.length →
      (columnsAux dm bpc off).get? (2 * i) =
        some ((List.range (bpc.getD i 0)).map fun r =>
          (dm (off + benchOffset bpc i + r + 1)).1) ∧
      (columnsAux dm bpc off).get? (2 * i + 1) =
        some ((List.range (bpc.getD i 0)).map fun r =>
          (dm (off + benchOffset bpc i + r + 1)).2)
  | [], i, _, h => absurd h (by simp)
  | rows :: t, 0, off, _ => by
    rw [columnsAux]
    refine ⟨?_, ?_⟩ <;> simp [benchOffset]
  | rows :: t, i + 1, off, h => by
    have h' : i < t.length := by
      have := Nat.lt_of_succ_lt_succ (by simpa using h)
      exact this
    obtain ⟨ih1, ih2⟩ := columnsAux_get dm t i (off + rows) h'
    have harg : ∀ r : Nat, off + rows + benchOffset t i + r + 1 =
        off + benchOffset (rows :: t) (i + 1) + r + 1 := by
      intro r
      simp only [benchOffset, List.take_succ_cons, List.sum_cons]
      omega
    rw [columnsAux]
    constructor
    · rw [show 2 * (i + 1) = 2 * i + 1 + 1 by omega]
      rw [List.get?_cons_succ, List.get?_cons_succ, ih1, List.getD_cons_succ]
      congr 1
      refine List.map_congr_left fun r _ => ?_
      rw [harg r]
    · rw [show 2 * (i + 1) + 1 = 2 * i + 1 + 1 + 1 by omega]
      rw [List.get?_cons_succ, List.get?_cons_succ, ih2, List.getD_cons_succ]
      congr 1
      refine List.map_congr_left fun r _ => ?_
      rw [harg r]

/-! ## The claims about the report generator (C7, C10) -/

/-- C7: a room's report has two sub-columns per physical column (Side 1 then
Side 2), each populated from the desk lookup before being padded; its
`maxRowsInColumn` is the maximum bench count over the columns, and every
sub-column is padded with trailing nulls to exactly that height. -/
theorem c7_report_grid (c : Classroom) (asg : List PrintAssignment)
    (r : PrintReportData) (h : buildRoomReport c asg = some r) :
    r.maxRowsInColumn = (benchesPerColumnOf c).foldl max 0 ∧
    r.columns.length = 2 * (benchesPerColumnOf c).length ∧
    (∀ sub ∈ r.columns, sub.length = r.maxRowsInColumn) ∧
    (∀ i, i < (benchesPerColumnOf c).length →
      r.columns.get? (2 * i) = some
        (((List.range ((benchesPerColumnOf c).getD i 0)).map fun row =>
          (deskMapOf (roomSorted c asg)
            (benchOffset (benchesPerColumnOf c) i + row + 1)).1) ++
          List.replicate ((benchesPerColumnOf c).foldl max 0 -
            (benchesPerColumnOf c).getD i 0) none) ∧
      r.columns.get? (2 * i + 1) = some
        (((List.range ((benchesPerColumnOf c).getD i 0)).map fun row =>
          (deskMapOf (roomSorted c asg)
            (benchOffset (benchesPerColumnOf c) i + row + 1)).2) ++
          List.replicate ((benchesPerColumnOf c).foldl max 0 -
            (benchesPerColumnOf c).getD i 0) none)) := by
  rw [buildRoomReport] at h
  split at h
  · exact absurd h (by simp)
  · injection h with h
    subst h
    refine ⟨rfl, ?_, ?_, ?_⟩
    · rw [List.length_map, columnsAux_length]
    · intro sub hsub
      obtain ⟨sub', hsub', rfl⟩ := List.mem_map.1 hsub
      obtain ⟨rows, hrows, hlen⟩ :=
        columnsAux_shapes (deskMapOf (roomSorted c asg)) (benchesPerColumnOf c)
          0 sub' hsub'
      have hle : rows ≤ (benchesPerColumnOf c).foldl max 0 :=
        le_foldl_max _ 0 rows (Or.inl hrows)
      simp only [List.length_append, List.length_replicate, hlen]
      omega
    · intro i hi
      obtain ⟨hg1, hg2⟩ :=
        columnsAux_get (deskMapOf (roomSorted c asg)) (benchesPerColumnOf c) i 0 hi
      constructor
      · rw [List.get?_map, hg1]
        simp only [Option.map_some', Nat.zero_add, List.length_map,
          List.length_range]
      · rw [List.get?_map, hg2]
        simp only [Option.map_some', Nat.zero_add, List.length_map,
          List.length_range]

theorem c7_witness :
    ∃ r, buildRoomReport benchRoom32 benchAsgs = some r ∧
      r.maxRowsInColumn = 3 ∧ r.columns.length = 4 ∧
      ∀ sub ∈ r.columns, sub.length = 3 := by
  rcases hr : buildRoomReport benchRoom32 benchAsgs with _ | r
  · exact absurd hr (by decide)
  obtain ⟨h1, h2, h3, _⟩ := c7_report_grid benchRoom32 benchAsgs r hr
  refine ⟨r, rfl, ?_, ?_, ?_⟩
  · rw [h1]; decide
  · rw [h2]; decide
  · intro sub hsub
    rw [h3 sub hsub, h1]
    decide

/-- C10 (implicit): a classroom with no matching assignments yields no report
entry at all, while an assignment whose desk number lies beyond the room's
benches is counted in the summary totals yet appears in none of the emitted
sub-columns — for the concrete one-bench room, the summary total is 1 but the
grid is entirely empty. -/
theorem c10_summary_grid_disagree :
    (∀ (c : Classroom) (asg : List PrintAssignment),
      asg.filter (roomMatch c) = [] →
      buildRoomReport c asg = none ∧ generatePrintData [c] asg = []) ∧
    (buildRoomReport overflowRoom [overflowAsg]).map
        (fun rep => ((rep.summary.map (·.total)).sum,
          rep.columns.all fun sub => sub.all fun x => x.isNone)) =
      some (1, true) := by
  constructor
  · intro c asg hf
    have h1 : buildRoomReport c asg = none := by
      rw [buildRoomReport]
      have h2 : roomSorted c asg = [] := by rw [roomSorted, hf]; rfl
      rw [h2]
      rfl
    refine ⟨h1, ?_⟩
    simp [generatePrintData, h1]
  · decide

theorem c10_witness :
    buildRoomReport overflowRoom [] = none ∧
    generatePrintData [overflowRoom] [] = [] :=
  c10_summary_grid_disagree.1 overflowRoom [] (by decide)

end SeatAlloc
